import Mathlib

/-!
Verification of the bokulich-lab/utilities release-engineering scripts.

The four Python scripts (ci/get-dependencies.py, ci/get-tags.py,
scripts/update-milestones.py, scripts/update-env-files.py) are shallowly
embedded below.  Strings are modelled as `List Char` (`Str`); Python's
string operations (`in`, `split`, `replace`, `strip`, slicing) are given
executable Lean counterparts with the same semantics, and each script
function is translated clause by clause from the source.
-/

set_option maxHeartbeats 1000000

namespace Utilities

/-- Python strings are modelled as lists of characters. -/
abbrev Str := List Char

/-! ## Substring occurrence (Python's `in` operator) -/

/-- Boolean test for `pat in s` (substring occurrence), as in Python. -/
def occursB (pat : Str) : Str → Bool
  | [] => pat.isEmpty
  | c :: rest => pat.isPrefixOf (c :: rest) || occursB pat rest

/-- Propositional substring occurrence: `s` decomposes around `pat`. -/
def Occurs (pat s : Str) : Prop := ∃ a b, s = a ++ pat ++ b

theorem isPrefixOf_iff {p s : Str} : p.isPrefixOf s = true ↔ p <+: s := by
  constructor
  · exact fun h => List.isPrefixOf_iff_prefix.mp h
  · exact fun h => List.isPrefixOf_iff_prefix.mpr h

theorem occursB_iff {pat s : Str} : occursB pat s = true ↔ Occurs pat s := by
  induction s with
  | nil =>
      simp only [occursB, List.isEmpty_iff, Occurs]
      constructor
      · rintro rfl; exact ⟨[], [], rfl⟩
      · rintro ⟨a, b, h⟩
        rcases List.append_eq_nil.mp ((List.append_eq_nil).mp h.symm).1 with ⟨_, h2⟩
        exact h2
  | cons c rest ih =>
      simp only [occursB, Bool.or_eq_true, ih]
      constructor
      · rintro (h | ⟨a, b, rfl⟩)
        · rcases (isPrefixOf_iff.mp h) with ⟨t, ht⟩
          exact ⟨[], t, by simpa using ht.symm⟩
        · exact ⟨c :: a, b, rfl⟩
      · rintro ⟨a, b, hab⟩
        cases a with
        | nil =>
            left
            exact isPrefixOf_iff.mpr ⟨b, by simpa using hab.symm⟩
        | cons a0 a' =>
            right
            refine ⟨a', b, ?_⟩
            have := hab
            simp only [List.cons_append] at this
            exact (List.cons.injEq _ _ _ _ ▸ this).2

theorem occurs_append_left {pat s : Str} (t : Str) (h : Occurs pat s) :
    Occurs pat (t ++ s) := by
  rcases h with ⟨a, b, rfl⟩
  exact ⟨t ++ a, b, by simp⟩

theorem occurs_of_front {pat b : Str} : Occurs pat (pat ++ b) := ⟨[], b, rfl⟩

theorem occurs_reverse {pat s : Str} (h : Occurs pat s) :
    Occurs pat.reverse s.reverse := by
  rcases h with ⟨a, b, rfl⟩
  exact ⟨b.reverse, a.reverse, by simp⟩

/-! ## Python `str.split(sep)` for a non-empty separator -/

/-- Fuel-driven worker for `splitOnList` (structural recursion on the fuel,
so that concrete instances reduce inside the kernel). -/
def splitOnListFuel (sep : Str) : Nat → Str → List Str
  | _, [] => [[]]
  | 0, s => [s]
  | fuel + 1, c :: rest =>
    if sep ≠ [] ∧ sep.isPrefixOf (c :: rest) then
      [] :: splitOnListFuel sep fuel ((c :: rest).drop sep.length)
    else
      match splitOnListFuel sep fuel rest with
      | [] => [[c]]
      | chunk :: t => (c :: chunk) :: t

/-- Python's `s.split(sep)`: scan left to right, cutting the string at each
non-overlapping occurrence of `sep`.  (For `sep = []`, which Python rejects,
this returns the string as a single chunk.) -/
def splitOnList (sep : Str) (s : Str) : List Str :=
  splitOnListFuel sep s.length s

theorem splitOnListFuel_congr (sep : Str) :
    ∀ f g s, s.length ≤ f → s.length ≤ g →
      splitOnListFuel sep f s = splitOnListFuel sep g s := by
  intro f
  induction f with
  | zero =>
      intro g s hf _
      cases s with
      | nil => cases g <;> rfl
      | cons c rest => simp at hf
  | succ f ih =>
      intro g s hf hg
      cases s with
      | nil => cases g <;> rfl
      | cons c rest =>
          cases g with
          | zero => simp at hg
          | succ g =>
              simp only [splitOnListFuel]
              by_cases h : sep ≠ [] ∧ sep.isPrefixOf (c :: rest) = true
              · rw [if_pos h, if_pos h]
                have hlen : ((c :: rest).drop sep.length).length ≤ f := by
                  have hpos : 0 < sep.length := List.length_pos.mpr h.1
                  simp only [List.length_drop, List.length_cons]
                  simp only [List.length_cons] at hf
                  omega
                have hlen' : ((c :: rest).drop sep.length).length ≤ g := by
                  have hpos : 0 < sep.length := List.length_pos.mpr h.1
                  simp only [List.length_drop, List.length_cons]
                  simp only [List.length_cons] at hg
                  omega
                rw [ih g _ hlen hlen']
              · rw [if_neg h, if_neg h]
                have hr : rest.length ≤ f := by
                  simp only [List.length_cons] at hf; omega
                have hr' : rest.length ≤ g := by
                  simp only [List.length_cons] at hg; omega
                rw [ih g rest hr hr']

theorem splitOnList_nil (sep : Str) : splitOnList sep [] = [[]] := rfl

theorem splitOnList_cons_pos {sep : Str} (c : Char) (rest : Str)
    (h : sep ≠ [] ∧ sep.isPrefixOf (c :: rest) = true) :
    splitOnList sep (c :: rest) =
      [] :: splitOnList sep ((c :: rest).drop sep.length) := by
  unfold splitOnList
  simp only [List.length_cons, splitOnListFuel, if_pos h]
  congr 1
  exact splitOnListFuel_congr sep _ _ _
    (by
      have hpos : 0 < sep.length := List.length_pos.mpr h.1
      simp only [List.length_drop, List.length_cons]; omega)
    (le_refl _)

theorem splitOnList_cons_neg {sep : Str} (c : Char) (rest : Str)
    (h : ¬(sep ≠ [] ∧ sep.isPrefixOf (c :: rest) = true)) :
    splitOnList sep (c :: rest) =
      match splitOnList sep rest with
      | [] => [[c]]
      | chunk :: t => (c :: chunk) :: t := by
  unfold splitOnList
  simp only [List.length_cons, splitOnListFuel, if_neg h]

/-! ## Python `str.replace(old, new)` (all occurrences, left to right) -/

/-- Fuel-driven worker for `replaceAll`. -/
def replaceAllFuel (pat rep : Str) : Nat → Str → Str
  | _, [] => []
  | 0, s => s
  | fuel + 1, c :: rest =>
    if pat ≠ [] ∧ pat.isPrefixOf (c :: rest) then
      rep ++ replaceAllFuel pat rep fuel ((c :: rest).drop pat.length)
    else
      c :: replaceAllFuel pat rep fuel rest

/-- Python's `s.replace(pat, rep)` for a non-empty `pat`: replace each
non-overlapping occurrence, scanning left to right.  (For `pat = []` this is
the identity; the scripts never call `replace` with an empty pattern.) -/
def replaceAll (s pat rep : Str) : Str :=
  replaceAllFuel pat rep s.length s

theorem replaceAllFuel_congr (pat rep : Str) :
    ∀ f g s, s.length ≤ f → s.length ≤ g →
      replaceAllFuel pat rep f s = replaceAllFuel pat rep g s := by
  intro f
  induction f with
  | zero =>
      intro g s hf _
      cases s with
      | nil => cases g <;> rfl
      | cons c rest => simp at hf
  | succ f ih =>
      intro g s hf hg
      cases s with
      | nil => cases g <;> rfl
      | cons c rest =>
          cases g with
          | zero => simp at hg
          | succ g =>
              simp only [replaceAllFuel]
              by_cases h : pat ≠ [] ∧ pat.isPrefixOf (c :: rest) = true
              · rw [if_pos h, if_pos h]
                have hpos : 0 < pat.length := List.length_pos.mpr h.1
                have hlen : ((c :: rest).drop pat.length).length ≤ f := by
                  simp only [List.length_drop, List.length_cons]
                  simp only [List.length_cons] at hf
                  omega
                have hlen' : ((c :: rest).drop pat.length).length ≤ g := by
                  simp only [List.length_drop, List.length_cons]
                  simp only [List.length_cons] at hg
                  omega
                rw [ih g _ hlen hlen']
              · rw [if_neg h, if_neg h]
                have hr : rest.length ≤ f := by
                  simp only [List.length_cons] at hf; omega
                have hr' : rest.length ≤ g := by
                  simp only [List.length_cons] at hg; omega
                rw [ih g rest hr hr']

theorem replaceAll_nil (pat rep : Str) : replaceAll [] pat rep = [] := rfl

theorem replaceAll_cons_pos {pat : Str} (c : Char) (rest rep : Str)
    (h : pat ≠ [] ∧ pat.isPrefixOf (c :: rest) = true) :
    replaceAll (c :: rest) pat rep =
      rep ++ replaceAll ((c :: rest).drop pat.length) pat rep := by
  unfold replaceAll
  simp only [List.length_cons, replaceAllFuel, if_pos h]
  congr 1
  exact replaceAllFuel_congr pat rep _ _ _
    (by
      have hpos : 0 < pat.length := List.length_pos.mpr h.1
      simp only [List.length_drop, List.length_cons]; omega)
    (le_refl _)

theorem replaceAll_cons_neg {pat : Str} (c : Char) (rest rep : Str)
    (h : ¬(pat ≠ [] ∧ pat.isPrefixOf (c :: rest) = true)) :
    replaceAll (c :: rest) pat rep = c :: replaceAll rest pat rep := by
  unfold replaceAll
  simp only [List.length_cons, replaceAllFuel, if_neg h]

/-! ## Python `dict` as an insertion-ordered association list -/

/-- `d[k] = v` on a Python dict: replace in place if the key exists,
otherwise append a new entry. -/
def dictInsert {K V : Type} [DecidableEq K] : List (K × V) → K → V → List (K × V)
  | [], k, v => [(k, v)]
  | (k', v') :: t, k, v =>
    if k' = k then (k, v) :: t else (k', v') :: dictInsert t k v

/-- `d[k]` / `k in d` on a Python dict (first matching entry). -/
def dictLookup {K V : Type} [DecidableEq K] : List (K × V) → K → Option V
  | [], _ => none
  | (k', v') :: t, k => if k' = k then some v' else dictLookup t k

/-! ## Python `str.strip()` -/

/-- The whitespace characters removed by Python's `str.strip()`. -/
def isPySpace (c : Char) : Bool :=
  c = ' ' || c = '\t' || c = '\n' || c = '\r' || c = '\x0b' || c = '\x0c'

/-- Python's `s.strip()`: drop leading and trailing whitespace. -/
def pyStrip (s : Str) : Str :=
  ((s.dropWhile isPySpace).reverse.dropWhile isPySpace).reverse

theorem occurs_dropWhile {p : α → Bool} {pat s : List α}
    (hne : pat ≠ []) (hpat : ∀ c ∈ pat, p c = false)
    (h : ∃ a b, s = a ++ pat ++ b) :
    ∃ a b, s.dropWhile p = a ++ pat ++ b := by
  induction s with
  | nil =>
      rcases h with ⟨a, b, hab⟩
      exact absurd hab.symm (by simp [hne])
  | cons c rest ih =>
      rcases h with ⟨a, b, hab⟩
      by_cases hc : p c = true
      · cases a with
        | nil =>
            cases pat with
            | nil => exact absurd rfl hne
            | cons p0 pt =>
                simp only [List.nil_append, List.cons_append] at hab
                injection hab with hab1 hab2
                have hp0 : p p0 = false := hpat p0 (by simp)
                rw [← hab1, hc] at hp0
                exact absurd hp0 (by simp)
        | cons a0 a' =>
            simp only [List.cons_append] at hab
            injection hab with hab1 hab2
            rw [List.dropWhile_cons_of_pos hc]
            exact ih ⟨a', b, hab2⟩
      · rw [List.dropWhile_cons_of_neg (by simpa using hc)]
        exact ⟨a, b, hab⟩

theorem occurs_pyStrip {pat s : Str}
    (hne : pat ≠ []) (hpat : ∀ c ∈ pat, isPySpace c = false)
    (h : Occurs pat s) : Occurs pat (pyStrip s) := by
  have h1 : Occurs pat (s.dropWhile isPySpace) :=
    occurs_dropWhile hne hpat h
  have h2 : Occurs pat.reverse (s.dropWhile isPySpace).reverse :=
    occurs_reverse h1
  have h3 : Occurs pat.reverse ((s.dropWhile isPySpace).reverse.dropWhile isPySpace) :=
    occurs_dropWhile (by simpa using hne) (by intro c hc; exact hpat c (by simpa using hc)) h2
  have h4 := occurs_reverse h3
  simpa [pyStrip] using h4

/-! ## ci/get-dependencies.py -/

/-- Default version returned by `process_placeholder` when no usable pin exists. -/
def defaultVersion : Str := ">=0.0.0".data

/-- Embedding of `process_placeholder(placeholder, seed_dependencies)`:
replace underscores with hyphens (Python `str.replace('_', '-')`), then
return the mapped version when the key is present with a truthy (non-empty)
value, and the default `">=0.0.0"` otherwise. -/
def process_placeholder (placeholder : Str) (seed_dependencies : List (Str × Str)) : Str :=
  let package_name := replaceAll placeholder ['_'] ['-']
  match dictLookup seed_dependencies package_name with
  | some v => if v ≠ [] then v else defaultVersion
  | none => defaultVersion

/-- One entry of the seed environment's `dependencies` list: either a YAML
string, or a nested (non-string) structure such as the pip sub-list. -/
inductive DepEntry
  | str (s : Str)
  | nested

/-- The parsed seed environment: `seed_env.get('dependencies', [])`. -/
structure SeedEnv where
  dependencies : List DepEntry

/-- Message standing for Python's uncaught `IndexError` in the version split. -/
def indexErrorMsg : Str := "IndexError: list index out of range".data

/-- The dependency-extraction loop inside `fetch_seed_environment`: for each
string entry, `parts = dep.split("=")`; under the guard `len(parts) >= 1` the
code reads `parts[0]` and `parts[1]`, so an entry whose split has exactly one
part raises an (uncaught) `IndexError`, modelled as `Except.error`. -/
def extractSeedDeps : List DepEntry → List (Str × Str) → Except Str (List (Str × Str))
  | [], acc => .ok acc
  | .nested :: rest, acc => extractSeedDeps rest acc
  | .str dep :: rest, acc =>
    let parts := splitOnList ['='] dep
    if parts.length ≥ 1 then
      match parts with
      | package_name :: version :: _ =>
          extractSeedDeps rest (dictInsert acc package_name version)
      | _ => .error indexErrorMsg
    else
      extractSeedDeps rest acc

/-- Embedding of `fetch_seed_environment`.  The HTTP request and the YAML
parse are modelled by the `fetched` argument (`Except.error` covers both a
`requests.RequestException` and a `yaml.YAMLError`); the function's
`except` clause catches exactly those two errors, prints a message and
returns the empty dict.  Errors raised by the extraction loop itself
(the `IndexError`) are not caught and propagate. -/
def fetch_seed_environment (fetched : Except Str SeedEnv) : Except Str (List (Str × Str)) :=
  match fetched with
  | .error _ => .ok []
  | .ok seed_env => extractSeedDeps seed_env.dependencies []

/-- Boolean discriminator for an `Except.error` result. -/
def isErrorResult {α : Type} : Except Str α → Bool
  | .error _ => true
  | .ok _ => false

/-- Entry appended by `main` when no extracted dependency mentions q2cli. -/
def q2cliEntry : Str := "  - q2cli".data

/-- The q2cli marker substring. -/
def q2cliStr : Str := "q2cli".data

/-- The per-dependency cleanup in `main`: `dep.strip()`, then if the result
starts with `'-'`, drop the dash and strip again. -/
def cleanDep (dep : Str) : Str :=
  let s := pyStrip dep
  if s.head? = some '-' then pyStrip (s.drop 1) else s

/-- The output-assembly step of `main` in get-dependencies.py: append
`"  - q2cli"` exactly when no extracted dependency contains `"q2cli"`,
then clean each entry for the `dependencies:` list of environment.yml. -/
def finalizeDeps (extracted : List Str) : List Str :=
  let deps :=
    if extracted.any (fun d => occursB q2cliStr d) then extracted
    else extracted ++ [q2cliEntry]
  deps.map cleanDep

/-! ## Jinja preprocessing in ci/get-dependencies.py -/

/-- The fixed part of a generated placeholder name. -/
def phStart : Str := "__JINJA_PLACEHOLDER_".data

/-- `f"__JINJA_PLACEHOLDER_{uuid.uuid4().hex}__"` for a given uuid hex. -/
def mkPlaceholder (u : Str) : Str := phStart ++ u ++ "__".data

/-- Matching the tail of the regex `{{[^}]+}}` right after an opening
`{{`: one or more non-`}` characters followed by `}}`.  Returns the body
and the remainder of the string after the match. -/
def matchBody (s : Str) : Option (Str × Str) :=
  match s.dropWhile (fun c => c ≠ '}') with
  | '}' :: '}' :: r2 =>
    if (s.takeWhile (fun c => c ≠ '}')).isEmpty then none
    else some (s.takeWhile (fun c => c ≠ '}'), r2)
  | _ => none

/-- Fuel-driven worker embedding `re.sub(r"{{[^}]+}}", replace_jinja,
content)`: scan left to right; at each `{{` try to complete a match of the
regex (replaced by a fresh placeholder built from the `n`-th uuid),
otherwise emit one character and continue.  This is exactly the
left-to-right, non-overlapping replacement order of `re.sub`. -/
def jinjaSubFuel (uuids : Nat → Str) : Nat → Str → Nat → Str × List (Str × Str)
  | _, [], _ => ([], [])
  | 0, s, _ => (s, [])
  | fuel + 1, c :: rest, n =>
    if c = '{' ∧ rest.head? = some '{' then
      match matchBody rest.tail with
      | some (body, r2) =>
        let ph := mkPlaceholder (uuids n)
        let pm := jinjaSubFuel uuids fuel r2 (n + 1)
        (ph ++ pm.1, (ph, '{' :: '{' :: (body ++ ['}', '}'])) :: pm.2)
      | none =>
        let pm := jinjaSubFuel uuids fuel rest n
        ('{' :: pm.1, pm.2)
    else
      let pm := jinjaSubFuel uuids fuel rest n
      (c :: pm.1, pm.2)

/-- Embedding of `preprocess_yaml_with_jinja(content)`: returns the
processed content and the placeholders map (in insertion order).  The
successive values of `uuid.uuid4().hex` are modelled by the stream
`uuids`. -/
def preprocess_yaml_with_jinja (uuids : Nat → Str) (content : Str) :
    Str × List (Str × Str) :=
  jinjaSubFuel uuids content.length content 0

/-- Embedding of `restore_jinja_expressions` on a string: for each entry of
the placeholders map in order, if the placeholder occurs in the current
string, replace every occurrence of it by the saved Jinja expression. -/
def restore_jinja_expressions (m : List (Str × Str)) (s : Str) : Str :=
  m.foldl (fun acc pe =>
    if occursB pe.1 acc then replaceAll acc pe.1 pe.2 else acc) s

/-- Number of positions of `s` at which `pat` occurs as a substring. -/
def countOcc (pat s : Str) : Nat :=
  ((List.range (s.length + 1)).filter (fun i => pat.isPrefixOf (s.drop i))).length

/-- Structural relation between a processed string (`out`), a placeholders
map (`m`) and an original string (`s`): the two strings agree except that
each map entry's placeholder in `out` stands for its expression in `s`,
in order. -/
inductive SegDecomp : Str → List (Str × Str) → Str → Prop
  | nil : SegDecomp [] [] []
  | chr (c : Char) {out m s} : SegDecomp out m s → SegDecomp (c :: out) m (c :: s)
  | ph (p e : Str) {out m s} : SegDecomp out m s →
      SegDecomp (p ++ out) ((p, e) :: m) (e ++ s)

/-! ## scripts/update-milestones.py -/

/-- Python truthiness of an optional string (`if args.due:`):
false for `None` and for the empty string. -/
def optTruthy : Option Str → Bool
  | some s => !s.isEmpty
  | none => false

/-- The `GITHUB_API` constant. -/
def GITHUB_API : Str := "https://api.github.com".data

/-- The milestones endpoint used by `create_or_edit_milestone`. -/
def milestonesUrl (repo : Str) : Str :=
  GITHUB_API ++ "/repos/".data ++ repo ++ "/milestones".data

/-- A milestone as returned by the hosting API (only the fields the script
reads: title and number). -/
structure Milestone where
  title : Str
  number : Nat

/-- The command-line arguments of update-milestones.py that influence the
HTTP behaviour (`verbose` and `no_color` only affect logging). -/
structure MArgs where
  name : Str
  repos : Str
  due : Option Str := none
  desc : Option Str := none
  edit : Bool := false
  close : Bool := false
  dry_run : Bool := false

/-- A JSON payload sent to the milestones API. -/
structure Payload where
  title : Option Str := none
  due_on : Option Str := none
  description : Option Str := none
  state : Option Str := none
deriving DecidableEq

/-- An HTTP call issued by the script. -/
inductive HttpCall
  | get (url : Str)
  | post (url : Str) (payload : Payload)
  | patch (url : Str) (payload : Payload)
deriving DecidableEq

/-- The payload of a call, if it carries one. -/
def callPayload : HttpCall → Option Payload
  | .get _ => none
  | .post _ p => some p
  | .patch _ p => some p

/-- Embedding of `create_or_edit_milestone(repo, args)` as the sequence of
HTTP calls it issues.  `milestones` models the JSON list returned by the
GET request in the edit/close path. -/
def create_or_edit_milestone (repo : Str) (args : MArgs) (milestones : List Milestone) :
    List HttpCall :=
  let url := milestonesUrl repo
  let payload : Payload :=
    { title := some args.name,
      due_on := if optTruthy args.due then args.due else none,
      description := if optTruthy args.desc then args.desc else none }
  if args.edit || args.close then
    match milestones.find? (fun m => m.title == args.name) with
    | none => [HttpCall.get url]
    | some milestone =>
      let url2 := url ++ "/".data ++ Nat.toDigits 10 milestone.number
      let payload2 : Payload :=
        { due_on := if args.edit && optTruthy args.due then args.due else none,
          description := if args.edit && optTruthy args.desc then args.desc else none,
          state := if args.close then some "closed".data else none }
      if args.dry_run then [HttpCall.get url]
      else [HttpCall.get url, HttpCall.patch url2 payload2]
  else
    if args.dry_run then [] else [HttpCall.post url payload]

/-- One date-time as parsed by `datetime.strptime`. -/
structure DateTime6 where
  y : Nat
  mo : Nat
  d : Nat
  h : Nat
  mi : Nat
  s : Nat
deriving DecidableEq

/-- Numeric value of an ASCII digit. -/
def charVal (c : Char) : Nat := c.toNat - 48

/-- Candidate parses for strptime's `%Y` (regex `\d\d\d\d`), in the
preference order of the regex engine. -/
def yOpts : Str → List (Nat × Str)
  | a :: b :: c :: d :: r =>
    if a.isDigit && b.isDigit && c.isDigit && d.isDigit then
      [(1000 * charVal a + 100 * charVal b + 10 * charVal c + charVal d, r)]
    else []
  | _ => []

/-- Candidate parses for `%m` (regex `1[0-2]|0[1-9]|[1-9]`). -/
def moOpts (s : Str) : List (Nat × Str) :=
  (match s with
   | '1' :: x :: r =>
     if x = '0' ∨ x = '1' ∨ x = '2' then [(10 + charVal x, r)] else []
   | _ => []) ++
  (match s with
   | '0' :: x :: r =>
     if '1' ≤ x ∧ x ≤ '9' then [(charVal x, r)] else []
   | _ => []) ++
  (match s with
   | x :: r => if '1' ≤ x ∧ x ≤ '9' then [(charVal x, r)] else []
   | _ => [])

/-- Candidate parses for `%d` (regex `3[01]|[12]\d|0[1-9]|[1-9]`). -/
def dOpts (s : Str) : List (Nat × Str) :=
  (match s with
   | '3' :: x :: r => if x = '0' ∨ x = '1' then [(30 + charVal x, r)] else []
   | _ => []) ++
  (match s with
   | x :: y :: r =>
     if (x = '1' ∨ x = '2') ∧ y.isDigit then
       [(10 * charVal x + charVal y, r)]
     else []
   | _ => []) ++
  (match s with
   | '0' :: x :: r =>
     if '1' ≤ x ∧ x ≤ '9' then [(charVal x, r)] else []
   | _ => []) ++
  (match s with
   | x :: r => if '1' ≤ x ∧ x ≤ '9' then [(charVal x, r)] else []
   | _ => [])

/-- Candidate parses for `%H` (regex `2[0-3]|[0-1]\d|\d`). -/
def hOpts (s : Str) : List (Nat × Str) :=
  (match s with
   | '2' :: x :: r =>
     if '0' ≤ x ∧ x ≤ '3' then [(20 + charVal x, r)] else []
   | _ => []) ++
  (match s with
   | x :: y :: r =>
     if (x = '0' ∨ x = '1') ∧ y.isDigit then
       [(10 * charVal x + charVal y, r)]
     else []
   | _ => []) ++
  (match s with
   | x :: r => if x.isDigit then [(charVal x, r)] else []
   | _ => [])

/-- Candidate parses for `%M` and `%S` (regex `[0-5]\d|\d`). -/
def msOpts (s : Str) : List (Nat × Str) :=
  (match s with
   | x :: y :: r =>
     if ('0' ≤ x ∧ x ≤ '5') ∧ y.isDigit then
       [(10 * charVal x + charVal y, r)]
     else []
   | _ => []) ++
  (match s with
   | x :: r => if x.isDigit then [(charVal x, r)] else []
   | _ => [])

/-- Gregorian leap-year rule used by `datetime`. -/
def isLeapYear (y : Nat) : Bool :=
  y % 4 = 0 && (y % 100 ≠ 0 || y % 400 = 0)

/-- Days in a month, as `datetime` validates them. -/
def daysInMonth (y m : Nat) : Nat :=
  if m = 2 then (if isLeapYear y then 29 else 28)
  else if m = 4 ∨ m = 6 ∨ m = 9 ∨ m = 11 then 30 else 31

/-- The range checks performed by the `datetime` constructor. -/
def validDateTime (dt : DateTime6) : Bool :=
  1 ≤ dt.y && dt.y ≤ 9999 && 1 ≤ dt.mo && dt.mo ≤ 12 &&
  1 ≤ dt.d && dt.d ≤ daysInMonth dt.y dt.mo &&
  dt.h ≤ 23 && dt.mi ≤ 59 && dt.s ≤ 59

/-- Embedding of `datetime.strptime(s, "%Y%m%d%H%M%S")`: the format's regex
is matched with the engine's backtracking preference order (first full match
of the six concatenated groups), then strptime's "unconverted data remains"
check requires the match to span the whole string, and the `datetime`
constructor validates the field ranges.  `none` models the `ValueError`.
(Python's `\d` also accepts non-ASCII Unicode digits; the model restricts
to ASCII digits.) -/
def strptime14 (s : Str) : Option DateTime6 :=
  match (yOpts s).findSome? (fun py =>
    (moOpts py.2).findSome? fun pm =>
    (dOpts pm.2).findSome? fun pd =>
    (hOpts pd.2).findSome? fun ph =>
    (msOpts ph.2).findSome? fun pmi =>
    (msOpts pmi.2).findSome? fun ps =>
    some ((⟨py.1, pm.1, pd.1, ph.1, pmi.1, ps.1⟩ : DateTime6), ps.2)) with
  | none => none
  | some (dt, rest) =>
    if rest = [] ∧ validDateTime dt = true then some dt else none

/-- Left-pad a number with zeros to the given width. -/
def padZeros (w n : Nat) : Str :=
  let ds := Nat.toDigits 10 n
  List.replicate (w - ds.length) '0' ++ ds

/-- Embedding of `dt.strftime("%Y-%m-%dT%H:%M:%SZ")`. -/
def isoFormat (dt : DateTime6) : Str :=
  padZeros 4 dt.y ++ "-".data ++ padZeros 2 dt.mo ++ "-".data ++ padZeros 2 dt.d ++
  "T".data ++ padZeros 2 dt.h ++ ":".data ++ padZeros 2 dt.mi ++ ":".data ++
  padZeros 2 dt.s ++ "Z".data

/-- The message of the `ValueError` raised by `main` for a bad `--due`. -/
def dueErrMsg : Str :=
  "Due date must be in format YYYYMMDDhhmmss, e.g., 20250630123000".data

/-- The `--due` handling at the top of `main`: a truthy `--due` is parsed
with strptime and reformatted to ISO 8601 (a parse failure becomes a
`ValueError`, modelled as `Except.error`); a falsy `--due` (absent or the
empty string) is left untouched and nothing is raised. -/
def processDue (due : Option Str) : Except Str (Option Str) :=
  if optTruthy due then
    match due with
    | some s =>
      match strptime14 s with
      | some dt => .ok (some (isoFormat dt))
      | none => .error dueErrMsg
    | none => .ok due
  else .ok due

/-- Embedding of `main` in update-milestones.py: process `--due`, then loop
over the comma-separated repository list, collecting every HTTP call.
`existing` models the milestone lists the GET requests return. -/
def milestoneMain (args : MArgs) (existing : Str → List Milestone) :
    Except Str (List HttpCall) :=
  match processDue args.due with
  | .error e => .error e
  | .ok due2 =>
    .ok (((splitOnList [','] args.repos).map pyStrip).flatMap
      (fun repo => create_or_edit_milestone repo { args with due := due2 } (existing repo)))

/-- Number of HTTP calls of a successful run (0 for an aborted run). -/
def callCount : Except Str (List HttpCall) → Nat
  | .ok calls => calls.length
  | .error _ => 0

/-- Concrete arguments for the C3 counterexample: two repositories,
`--edit`, no dry run. -/
def c3args : MArgs :=
  { name := "2025.7".data, repos := "org/a,org/b".data, edit := true }

/-- Concrete milestone-list responses for the C3 counterexample. -/
def c3existing : Str → List Milestone :=
  fun _ => [{ title := "2025.7".data, number := 1 }]

/-- Unwrap the calls of a successful run (empty for an aborted run). -/
def exceptCalls (r : Except Str (List HttpCall)) : List HttpCall :=
  match r with
  | .ok l => l
  | .error _ => []

/-! ## ci/get-tags.py -/

/-- The substring used to classify tags. -/
def devStr : Str := "dev".data

/-- Embedding of `get_latest_dev_and_stable(tags)`. -/
def get_latest_dev_and_stable (tags : List Str) : Option Str × Option Str :=
  let dev_tags := tags.filter (fun tag => occursB devStr tag)
  let stable_tags := tags.filter (fun tag => !occursB devStr tag)
  (dev_tags.head?, stable_tags.head?)

/-- Embedding of `get_previous_dev_and_stable(tags)`:
`dev_tags[1] if len(dev_tags) > 1 else None`, and likewise for stable. -/
def get_previous_dev_and_stable (tags : List Str) : Option Str × Option Str :=
  let dev_tags := tags.filter (fun tag => occursB devStr tag)
  let stable_tags := tags.filter (fun tag => !occursB devStr tag)
  (dev_tags[1]?, stable_tags[1]?)

/-- Spec-side description (from the claim's words): the positionally first
element of the list satisfying the predicate. -/
def firstSatisfying (p : Str → Bool) : List Str → Option Str
  | [] => none
  | t :: ts => if p t then some t else firstSatisfying p ts

/-- Spec-side description (from the claim's words): the positionally second
element of the list satisfying the predicate. -/
def secondSatisfying (p : Str → Bool) : List Str → Option Str
  | [] => none
  | t :: ts => if p t then firstSatisfying p ts else secondSatisfying p ts

theorem head?_filter_eq_firstSatisfying (p : Str → Bool) (l : List Str) :
    (l.filter p).head? = firstSatisfying p l := by
  induction l with
  | nil => rfl
  | cons t ts ih =>
      by_cases h : p t = true
      · simp [List.filter_cons, h, firstSatisfying]
      · simp only [Bool.not_eq_true] at h
        simp [List.filter_cons, h, firstSatisfying, ih]

theorem getElem?_one_filter_eq_secondSatisfying (p : Str → Bool) (l : List Str) :
    (l.filter p)[1]? = secondSatisfying p l := by
  induction l with
  | nil => rfl
  | cons t ts ih =>
      simp only [secondSatisfying]
      by_cases h : p t = true
      · simp only [List.filter_cons, h, if_true, ← head?_filter_eq_firstSatisfying]
        cases hf : ts.filter p <;> simp
      · simp only [Bool.not_eq_true] at h
        simp [List.filter_cons, h, ih]

/-! ## scripts/update-env-files.py -/

/-- `FILENAME_SUFFIX = ".yml"`. -/
def ymlSuffix : Str := ".yml".data

/-- The separator `"-qiime2-"` used by `parse_env_filename`. -/
def sepQiime2 : Str := "-qiime2-".data

/-- A parsed env filename (the `path` field of the Python dataclass is the
filename itself in this model; only the name is ever parsed or rebuilt). -/
structure EnvFileInfo where
  plugin_name : Str
  distribution : Str
  release : Str
deriving DecidableEq

/-- `re.fullmatch(r"\d+\.\d+", release)`: digits, one dot, digits.
(Python's `\d` also accepts non-ASCII Unicode digits; the model restricts
to ASCII digits.) -/
def isReleaseTok (s : Str) : Bool :=
  match splitOnList ['.'] s with
  | [a, b] => !a.isEmpty && !b.isEmpty && a.all Char.isDigit && b.all Char.isDigit
  | _ => false

/-- Embedding of `parse_env_filename`: require the `.yml` suffix, split the
stem at `"-qiime2-"` into exactly two parts, split the remainder at its
first `-` into distribution and release, and validate the release token. -/
def parse_env_filename (name : Str) : Option EnvFileInfo :=
  if name.drop (name.length - 4) = ymlSuffix then
    let stem := name.take (name.length - 4)
    match splitOnList sepQiime2 stem with
    | [plugin_name, rest] =>
      if '-' ∈ rest then
        let distribution := rest.takeWhile (fun c => c ≠ '-')
        let release := (rest.dropWhile (fun c => c ≠ '-')).drop 1
        if isReleaseTok release then
          some ⟨plugin_name, distribution, release⟩
        else none
      else none
    | _ => none
  else none

/-- Numeric value of an ASCII digit string (`int(...)`). -/
def natOfDigits (s : Str) : Nat := s.foldl (fun n c => 10 * n + charVal c) 0

/-- Embedding of `release_key`: `(int(major), int(minor))`.  (On a release
that does not contain exactly one dot the Python unpacking would raise; the
scripts only call it on validated releases, where the fallback `(0, 0)`
branch is unreachable.) -/
def release_key (release : Str) : Nat × Nat :=
  match splitOnList ['.'] release with
  | [major, minor] => (natOfDigits major, natOfDigits minor)
  | _ => (0, 0)

/-- Python's `>` on `(int, int)` tuples: lexicographic comparison. -/
def keyLtB (a b : Nat × Nat) : Bool :=
  decide (a.1 < b.1) || (decide (a.1 = b.1) && decide (a.2 < b.2))

/-- The `(plugin_name, distribution)` dict key of an env file. -/
def pairOf (i : EnvFileInfo) : Str × Str := (i.plugin_name, i.distribution)

/-- One iteration of the selection loop in `select_latest_envs`: reset the
dict on a strictly newer release key, insert on an equal key, skip an older
one. -/
def selectStep (st : Option (Nat × Nat) × List ((Str × Str) × EnvFileInfo))
    (info : EnvFileInfo) :
    Option (Nat × Nat) × List ((Str × Str) × EnvFileInfo) :=
  let k := release_key info.release
  match st.1 with
  | none => (some k, [(pairOf info, info)])
  | some m =>
    if keyLtB m k then (some k, [(pairOf info, info)])
    else if k = m then (st.1, dictInsert st.2 (pairOf info) info)
    else st

/-- The distribution dropped in favour of moshpit. -/
def metagenomeStr : Str := "metagenome".data

/-- The preferred distribution. -/
def moshpitStr : Str := "moshpit".data

/-- Python's `<` on strings: lexicographic comparison by code point. -/
def listLtB : Str → Str → Bool
  | [], [] => false
  | [], _ :: _ => true
  | _ :: _, [] => false
  | a :: as, b :: bs => if a < b then true else if b < a then false else listLtB as bs

/-- Python's `<` on the sort key `(plugin_name, distribution, release_key)`. -/
def envLtB (x y : EnvFileInfo) : Bool :=
  if listLtB x.plugin_name y.plugin_name then true
  else if listLtB y.plugin_name x.plugin_name then false
  else if listLtB x.distribution y.distribution then true
  else if listLtB y.distribution x.distribution then false
  else keyLtB (release_key x.release) (release_key y.release)

/-- Non-strict comparator derived from `envLtB`. -/
def envLe (x y : EnvFileInfo) : Bool := !envLtB y x

/-- Insert into a sorted list (kept in `envLe` order). -/
def insertSorted (x : EnvFileInfo) : List EnvFileInfo → List EnvFileInfo
  | [] => [x]
  | y :: ys => if envLe x y then x :: y :: ys else y :: insertSorted x ys

/-- Sorting model for Python's `sorted(..., key=...)`.  The comparator is a
strict total order on the entries being sorted (their `(plugin,
distribution)` keys are pairwise distinct dict keys), so any comparison
sort, in particular this insertion sort, produces the same list as
CPython's stable mergesort. -/
def insertionSort : List EnvFileInfo → List EnvFileInfo
  | [] => []
  | x :: xs => insertSorted x (insertionSort xs)

/-- Embedding of `select_latest_envs(env_dir)`, where `files` is the
directory listing.  The source iterates `env_dir.glob("*-qiime2-*-*.yml")`
and skips files whose name `parse_env_filename` rejects; every name that
parses also matches that glob pattern, so the glob is subsumed by the parse
filter.  Then: fold the selection loop, drop metagenome entries whose
plugin also has a moshpit entry, and sort by the Python key. -/
def select_latest_envs (files : List Str) : List EnvFileInfo :=
  let st := (files.filterMap parse_env_filename).foldl selectStep (none, [])
  let vals := st.2.map Prod.snd
  let filtered := vals.filter (fun info =>
    !(decide (info.distribution = metagenomeStr) &&
      (dictLookup st.2 (info.plugin_name, moshpitStr)).isSome))
  insertionSort filtered

/-- The env file infos parsed from the directory listing. -/
def parsedInfos (files : List Str) : List EnvFileInfo :=
  files.filterMap parse_env_filename

/-- Running maximum of release keys, starting from `k`. -/
def maxKeyFrom (k : Nat × Nat) (l : List EnvFileInfo) : Nat × Nat :=
  l.foldl (fun acc i =>
    if keyLtB acc (release_key i.release) then release_key i.release else acc) k

/-- The maximal release key of a list of parsed env files ((0, 0) for an
empty list, where it is never used). -/
def maxKeyOf : List EnvFileInfo → Nat × Nat
  | [] => (0, 0)
  | x :: t => maxKeyFrom (release_key x.release) t

/-- Strict lexicographic order on `(plugin_name, distribution)` pairs. -/
def pairLtB (p q : Str × Str) : Bool :=
  if listLtB p.1 q.1 then true
  else if listLtB q.1 p.1 then false
  else listLtB p.2 q.2

/-- The `envs_for_latest` dict after the selection loop. -/
def selectDict (files : List Str) : List ((Str × Str) × EnvFileInfo) :=
  ((parsedInfos files).foldl selectStep (none, [])).2

/-- `envs_for_latest.values()`. -/
def selectVals (files : List Str) : List EnvFileInfo :=
  (selectDict files).map Prod.snd

/-- `filtered_envs`: the values with metagenome entries dropped when the
plugin also has a moshpit entry. -/
def selectFiltered (files : List Str) : List EnvFileInfo :=
  (selectVals files).filter (fun info =>
    !(decide (info.distribution = metagenomeStr) &&
      (dictLookup (selectDict files) (info.plugin_name, moshpitStr)).isSome))

/-- The filename built by `write_new_env_file`:
`f"{plugin}-qiime2-{distribution}-{new_release}.yml"`. -/
def newEnvFileName (latest : EnvFileInfo) (new_release : Str) : Str :=
  latest.plugin_name ++ sepQiime2 ++ latest.distribution ++ "-".data ++
    new_release ++ ymlSuffix

/-- Embedding of `write_new_env_file(latest, new_release)` with `text` the
content of the latest env file: returns the new filename and the new
content `text.replace(latest.release, new_release)`. -/
def write_new_env_file (latest : EnvFileInfo) (new_release : Str) (text : Str) :
    Str × Str :=
  (newEnvFileName latest new_release, replaceAll text latest.release new_release)

/-- Concrete arguments for the C7 witness. -/
def c7args : MArgs :=
  { name := "m".data, repos := "org/a".data, due := some "20250630123000".data }

/-- Concrete directory listing for the C5 witness. -/
def c5files : List Str :=
  ["p-qiime2-moshpit-2025.7.yml".data, "p-qiime2-metagenome-2025.7.yml".data,
   "a-qiime2-tiny-2025.6.yml".data]

/-- Concrete uuid stream for the C8 witness. -/
def c8uuids : Nat → Str := fun n => if n = 0 then "aa".data else "bb".data

/-- Concrete content with two Jinja expressions for the C8 witness. -/
def c8content : Str :=
  "x: ".data ++ ['{', '{'] ++ " a ".data ++ ['}', '}'] ++ ", y: ".data ++
    ['{', '{'] ++ " b ".data ++ ['}', '}']

/-! ## Helper lemmas for the claims above -/

theorem replaceAll_single (o n : Char) (s : Str) :
    replaceAll s [o] [n] = s.map (fun c => if c = o then n else c) := by
  induction s with
  | nil => rfl
  | cons c rest ih =>
      by_cases h : o = c
      · subst h
        rw [replaceAll_cons_pos o rest [n]
            ⟨by simp, by simp [List.isPrefixOf]⟩]
        simp [ih]
      · rw [replaceAll_cons_neg c rest [n]
            (by rintro ⟨-, hpre⟩; exact h (by simpa [List.isPrefixOf] using hpre))]
        simp only [List.map_cons, ih, List.cons.injEq, and_true]
        rw [if_neg (fun hc => h hc.symm)]

theorem splitOnListFuel_ne_nil (sep : Str) : ∀ fuel s, splitOnListFuel sep fuel s ≠ [] := by
  intro fuel
  induction fuel with
  | zero => intro s; cases s <;> simp [splitOnListFuel]
  | succ f ih =>
      intro s
      cases s with
      | nil => simp [splitOnListFuel]
      | cons c rest =>
          simp only [splitOnListFuel]
          by_cases h : sep ≠ [] ∧ sep.isPrefixOf (c :: rest) = true
          · rw [if_pos h]; simp
          · rw [if_neg h]
            cases hr : splitOnListFuel sep f rest <;> simp

theorem splitOnListFuel_single_inv (sep : Str) (hsep : sep ≠ []) :
    ∀ fuel t t', t.length ≤ fuel → splitOnListFuel sep fuel t = [t'] →
      t' = t ∧ ∀ j, sep.isPrefixOf (t.drop j) = false := by
  have hnil : ∀ j : Nat, sep.isPrefixOf (([] : Str).drop j) = false := by
    intro j
    cases sep with
    | nil => exact absurd rfl hsep
    | cons s0 st => simp [List.isPrefixOf]
  intro fuel
  induction fuel with
  | zero =>
      intro t t' hlen h
      have ht : t = [] := List.length_eq_zero.mp (Nat.le_zero.mp hlen)
      subst ht
      simp only [splitOnListFuel, List.cons.injEq] at h
      exact ⟨h.1.symm, hnil⟩
  | succ f ih =>
      intro t t' hlen h
      cases t with
      | nil =>
          simp only [splitOnListFuel, List.cons.injEq] at h
          exact ⟨h.1.symm, hnil⟩
      | cons c rest =>
          simp only [splitOnListFuel] at h
          by_cases hc : sep ≠ [] ∧ sep.isPrefixOf (c :: rest) = true
          · rw [if_pos hc] at h
            injection h with h1 h2
            exact absurd h2 (splitOnListFuel_ne_nil sep f _)
          · rw [if_neg hc] at h
            cases hr : splitOnListFuel sep f rest with
            | nil => exact absurd hr (splitOnListFuel_ne_nil sep f rest)
            | cons chunk t2 =>
                rw [hr] at h
                injection h with h1 h2
                subst h2
                obtain ⟨hch, hB⟩ := ih rest chunk
                  (by simp only [List.length_cons] at hlen; omega) hr
                subst hch
                refine ⟨h1.symm, ?_⟩
                intro j
                cases j with
                | zero =>
                    simp only [List.drop_zero]
                    exact Bool.eq_false_iff.mpr (fun hp => hc ⟨hsep, hp⟩)
                | succ j => simpa using hB j

theorem splitOnListFuel_pair_inv (sep : Str) (hsep : sep ≠ []) :
    ∀ fuel s a b, s.length ≤ fuel → splitOnListFuel sep fuel s = [a, b] →
      s = a ++ sep ++ b ∧ (∀ j < a.length, sep.isPrefixOf (s.drop j) = false) ∧
      ∀ j, sep.isPrefixOf (b.drop j) = false := by
  intro fuel
  induction fuel with
  | zero =>
      intro s a b hlen h
      have hs : s = [] := List.length_eq_zero.mp (Nat.le_zero.mp hlen)
      subst hs
      simp [splitOnListFuel] at h
  | succ f ih =>
      intro s a b hlen h
      cases s with
      | nil => simp [splitOnListFuel] at h
      | cons c rest =>
          simp only [splitOnListFuel] at h
          by_cases hc : sep ≠ [] ∧ sep.isPrefixOf (c :: rest) = true
          · rw [if_pos hc] at h
            injection h with h1 h2
            obtain ⟨hb, hB⟩ := splitOnListFuel_single_inv sep hsep f _ b
              (by
                have hpos : 0 < sep.length := List.length_pos.mpr hsep
                simp only [List.length_drop, List.length_cons]
                simp only [List.length_cons] at hlen
                omega) h2
            have hpre : sep <+: (c :: rest) := isPrefixOf_iff.mp hc.2
            have hdecomp : (c :: rest) = sep ++ (c :: rest).drop sep.length := by
              rcases hpre with ⟨u, hu⟩
              rw [← hu, List.drop_left]
            refine ⟨?_, ?_, ?_⟩
            · rw [← h1]
              simp only [List.nil_append]
              rw [hb, ← hdecomp]
            · intro j hj
              rw [← h1] at hj
              simp at hj
            · rw [hb]
              exact hB
          · rw [if_neg hc] at h
            cases hr : splitOnListFuel sep f rest with
            | nil => exact absurd hr (splitOnListFuel_ne_nil sep f rest)
            | cons chunk t2 =>
                rw [hr] at h
                injection h with h1 h2
                have hrec : splitOnListFuel sep f rest = [chunk, b] := by
                  rw [hr, h2]
                obtain ⟨hdec, hA, hB⟩ := ih rest chunk b
                  (by simp only [List.length_cons] at hlen; omega) hrec
                refine ⟨?_, ?_, hB⟩
                · rw [← h1]
                  simp only [List.cons_append]
                  rw [← hdec]
                · intro j hj
                  cases j with
                  | zero =>
                      simp only [List.drop_zero]
                      exact Bool.eq_false_iff.mpr (fun hp => hc ⟨hsep, hp⟩)
                  | succ j =>
                      rw [← h1] at hj
                      simp only [List.length_cons, Nat.succ_lt_succ_iff] at hj
                      simpa using hA j hj

theorem splitOnList_pair_inv {sep s a b : Str} (hsep : sep ≠ [])
    (h : splitOnList sep s = [a, b]) :
    s = a ++ sep ++ b ∧ (∀ j < a.length, sep.isPrefixOf (s.drop j) = false) ∧
    ∀ j, sep.isPrefixOf (b.drop j) = false :=
  splitOnListFuel_pair_inv sep hsep s.length s a b (le_refl _) h

theorem splitOnList_no_occurrence {sep : Str} (b : Str)
    (hB : ∀ j, sep.isPrefixOf (b.drop j) = false) : splitOnList sep b = [b] := by
  induction b with
  | nil => rfl
  | cons c t ih =>
      rw [splitOnList_cons_neg c t
        (by
          rintro ⟨-, h2⟩
          have h0 := hB 0
          simp only [List.drop_zero] at h0
          rw [h0] at h2
          exact Bool.false_ne_true h2)]
      rw [ih (fun j => by simpa using hB (j + 1))]

theorem splitOnList_append {sep : Str} (hsep : sep ≠ []) (a b : Str)
    (hA : ∀ j < a.length, sep.isPrefixOf ((a ++ sep ++ b).drop j) = false) :
    splitOnList sep (a ++ sep ++ b) = a :: splitOnList sep b := by
  induction a with
  | nil =>
      simp only [List.nil_append]
      cases hs : sep with
      | nil => exact absurd hs hsep
      | cons s0 st =>
          show splitOnList (s0 :: st) (s0 :: (st ++ b)) = [] :: splitOnList (s0 :: st) b
          rw [splitOnList_cons_pos s0 (st ++ b)
            ⟨by simp, isPrefixOf_iff.mpr (List.prefix_append (s0 :: st) b)⟩]
          congr 1
          show splitOnList (s0 :: st) (((s0 :: st) ++ b).drop (s0 :: st).length) =
            splitOnList (s0 :: st) b
          rw [List.drop_left]
  | cons c a' ih =>
      have h0 := hA 0 (by simp)
      simp only [List.drop_zero, List.cons_append] at h0
      simp only [List.cons_append]
      rw [@splitOnList_cons_neg sep c (a' ++ sep ++ b)
        (by
          rintro ⟨-, h2⟩
          rw [h0] at h2
          exact Bool.false_ne_true h2)]
      have ih2 := ih (fun j hj => by
        have := hA (j + 1) (by simp only [List.length_cons]; omega)
        simpa using this)
      rw [ih2]

theorem isPrefixOf_eq_true_iff_take {p l : Str} :
    p.isPrefixOf l = true ↔ l.take p.length = p := by
  rw [isPrefixOf_iff, List.prefix_iff_eq_take]
  exact ⟨fun h => h.symm, fun h => h.symm⟩

theorem isPrefixOf_drop_append_congr (sep x b b' : Str) (j : Nat)
    (hj : j + sep.length ≤ x.length) :
    sep.isPrefixOf ((x ++ b).drop j) = sep.isPrefixOf ((x ++ b').drop j) := by
  have key : ∀ u : Str, ((x ++ u).drop j).take sep.length = (x.drop j).take sep.length := by
    intro u
    rw [List.drop_append_of_le_length (by omega)]
    rw [List.take_append_of_le_length (by simp only [List.length_drop]; omega)]
  have h1 : sep.isPrefixOf ((x ++ b).drop j) = true ↔
      sep.isPrefixOf ((x ++ b').drop j) = true := by
    rw [isPrefixOf_eq_true_iff_take, isPrefixOf_eq_true_iff_take, key b, key b']
  cases hb1 : sep.isPrefixOf ((x ++ b).drop j) with
  | true => exact (h1.mp hb1).symm
  | false =>
      cases hb2 : sep.isPrefixOf ((x ++ b').drop j) with
      | true => rw [h1.mpr hb2] at hb1; exact hb1.symm
      | false => rfl

theorem ne_nil_of_isEmpty_false {l : Str} (h : l.isEmpty = false) : l ≠ [] := by
  cases l with
  | nil => simp at h
  | cons c t => simp

theorem sepQiime2_not_prefix_of_single_dash (dist rel : Str)
    (hd : ∀ c ∈ dist, c ≠ '-') (hr : ∀ c ∈ rel, c ≠ '-') (j : Nat) :
    sepQiime2.isPrefixOf ((dist ++ '-' :: rel).drop j) = false := by
  cases hcase : sepQiime2.isPrefixOf ((dist ++ '-' :: rel).drop j) with
  | false => rfl
  | true =>
      exfalso
      rcases isPrefixOf_iff.mp hcase with ⟨u, hu⟩
      have h0 : ((dist ++ '-' :: rel).drop j)[0]? = some '-' := by
        rw [← hu, List.getElem?_append, if_pos (by decide)]
        decide
      have h7 : ((dist ++ '-' :: rel).drop j)[7]? = some '-' := by
        rw [← hu, List.getElem?_append, if_pos (by decide)]
        decide
      rw [List.getElem?_drop] at h0 h7
      have huniq : ∀ k, (dist ++ '-' :: rel)[k]? = some '-' → k = dist.length := by
        intro k hk
        rcases lt_trichotomy k dist.length with hlt | heq | hgt
        · rw [List.getElem?_append, if_pos hlt] at hk
          exact absurd rfl (hd '-' (List.getElem?_mem hk))
        · exact heq
        · rw [List.getElem?_append, if_neg (by omega)] at hk
          have hks : k - dist.length = (k - dist.length - 1) + 1 := by omega
          rw [hks, List.getElem?_cons_succ] at hk
          exact absurd rfl (hr '-' (List.getElem?_mem hk))
      have e0 := huniq (j + 0) h0
      have e7 := huniq (j + 7) h7
      omega

theorem takeWhile_append_dash (dist rel : Str) (hd : ∀ c ∈ dist, c ≠ '-') :
    (dist ++ '-' :: rel).takeWhile (fun c => c ≠ '-') = dist := by
  induction dist with
  | nil => simp [List.takeWhile_cons]
  | cons c t ih =>
      have hc : decide (c ≠ '-') = true := by
        simp [hd c (by simp)]
      simp only [List.cons_append, List.takeWhile_cons, hc, if_true]
      rw [ih (fun x hx => hd x (by simp [hx]))]

theorem dropWhile_append_dash (dist rel : Str) (hd : ∀ c ∈ dist, c ≠ '-') :
    (dist ++ '-' :: rel).dropWhile (fun c => c ≠ '-') = '-' :: rel := by
  induction dist with
  | nil => simp [List.dropWhile_cons]
  | cons c t ih =>
      have hc : decide (c ≠ '-') = true := by
        simp [hd c (by simp)]
      simp only [List.cons_append, List.dropWhile_cons, hc, if_true]
      exact ih (fun x hx => hd x (by simp [hx]))

theorem dropWhile_dash_of_mem {r : Str} (h : '-' ∈ r) :
    ∃ tail, r.dropWhile (fun c => c ≠ '-') = '-' :: tail := by
  induction r with
  | nil => simp at h
  | cons c t ih =>
      by_cases hc : c = '-'
      · subst hc
        refine ⟨t, ?_⟩
        simp [List.dropWhile_cons]
      · have hct : '-' ∈ t := by
          rcases List.mem_cons.mp h with h1 | h1
          · exact absurd h1.symm hc
          · exact h1
        rcases ih hct with ⟨tail, htail⟩
        refine ⟨tail, ?_⟩
        simp only [List.dropWhile_cons, decide_eq_true_eq]
        rw [if_pos (fun he => hc he), htail]

theorem isReleaseTok_decomp {s : Str} (h : isReleaseTok s = true) :
    ∃ a b, s = a ++ '.' :: b ∧ a ≠ [] ∧ b ≠ [] ∧
      (∀ c ∈ a, c.isDigit = true) ∧ ∀ c ∈ b, c.isDigit = true := by
  unfold isReleaseTok at h
  cases hsp : splitOnList ['.'] s with
  | nil => rw [hsp] at h; simp at h
  | cons a t =>
      cases t with
      | nil => rw [hsp] at h; simp at h
      | cons b t2 =>
          cases t2 with
          | nil =>
              rw [hsp] at h
              simp only [Bool.and_eq_true, Bool.not_eq_true', List.all_eq_true] at h
              obtain ⟨hdec, -, -⟩ := @splitOnList_pair_inv ['.'] _ _ _ (by simp) hsp
              refine ⟨a, b, ?_, ?_, ?_, ?_, ?_⟩
              · simpa using hdec
              · exact ne_nil_of_isEmpty_false h.1.1.1
              · exact ne_nil_of_isEmpty_false h.1.1.2
              · exact fun c hc => h.1.2 c hc
              · exact fun c hc => h.2 c hc
          | cons x t3 => rw [hsp] at h; simp at h

theorem isReleaseTok_chars {s : Str} (h : isReleaseTok s = true) :
    ∀ c ∈ s, c.isDigit = true ∨ c = '.' := by
  obtain ⟨a, b, rfl, -, -, ha, hb⟩ := isReleaseTok_decomp h
  intro c hc
  rcases List.mem_append.mp hc with h1 | h1
  · exact Or.inl (ha c h1)
  · rcases List.mem_cons.mp h1 with h2 | h2
    · exact Or.inr h2
    · exact Or.inl (hb c h2)

theorem isReleaseTok_no_dash {s : Str} (h : isReleaseTok s = true) :
    ∀ c ∈ s, c ≠ '-' := by
  intro c hc
  rcases isReleaseTok_chars h c hc with hdig | hdot
  · intro he; subst he; simp [Char.isDigit] at hdig
  · intro he; subst he; simp at hdot

theorem keyLtB_iff {a b : Nat × Nat} :
    keyLtB a b = true ↔ (a.1 < b.1 ∨ (a.1 = b.1 ∧ a.2 < b.2)) := by
  simp [keyLtB]

theorem keyLtB_irrefl (a : Nat × Nat) : keyLtB a a = false := by
  simp [keyLtB]

theorem keyLtB_trans {a b c : Nat × Nat}
    (h1 : keyLtB a b = true) (h2 : keyLtB b c = true) : keyLtB a c = true := by
  rw [keyLtB_iff] at h1 h2 ⊢
  omega

theorem keyLtB_asymm {a b : Nat × Nat}
    (h1 : keyLtB a b = true) (h2 : keyLtB b a = true) : False := by
  rw [keyLtB_iff] at h1 h2
  omega

theorem keyLtB_connex {a b : Nat × Nat}
    (h1 : keyLtB a b = false) (h2 : keyLtB b a = false) : a = b := by
  have h1' : ¬(a.1 < b.1 ∨ (a.1 = b.1 ∧ a.2 < b.2)) := by
    rw [← keyLtB_iff]; simp [h1]
  have h2' : ¬(b.1 < a.1 ∨ (b.1 = a.1 ∧ b.2 < a.2)) := by
    rw [← keyLtB_iff]; simp [h2]
  have : a.1 = b.1 ∧ a.2 = b.2 := by omega
  exact Prod.ext this.1 this.2

theorem listLtB_asymm : ∀ {a b : Str},
    listLtB a b = true → listLtB b a = true → False := by
  intro a
  induction a with
  | nil => intro b h1 h2; cases b <;> simp [listLtB] at h1 h2
  | cons x xs ih =>
      intro b h1 h2
      cases b with
      | nil => simp [listLtB] at h1
      | cons y ys =>
          simp only [listLtB] at h1 h2
          by_cases hxy : x < y
          · have hyx : ¬ y < x := fun h => absurd hxy (asymm h)
            rw [if_pos hxy] at h1
            rw [if_neg hyx, if_pos hxy] at h2
            exact Bool.false_ne_true h2
          · by_cases hyx : y < x
            · rw [if_neg hxy, if_pos hyx] at h1
              exact Bool.false_ne_true h1
            · rw [if_neg hxy, if_neg hyx] at h1
              rw [if_neg hyx, if_neg hxy] at h2
              exact ih h1 h2

theorem listLtB_trans : ∀ {a b c : Str},
    listLtB a b = true → listLtB b c = true → listLtB a c = true := by
  intro a
  induction a with
  | nil =>
      intro b c h1 h2
      cases b with
      | nil => simp [listLtB] at h1
      | cons y ys =>
          cases c with
          | nil => simp [listLtB] at h2
          | cons z zs => simp [listLtB]
  | cons x xs ih =>
      intro b c h1 h2
      cases b with
      | nil => simp [listLtB] at h1
      | cons y ys =>
          cases c with
          | nil => simp [listLtB] at h2
          | cons z zs =>
              simp only [listLtB] at h1 h2 ⊢
              by_cases hxy : x < y
              · by_cases hyz : y < z
                · rw [if_pos (lt_trans hxy hyz)]
                · rw [if_neg hyz] at h2
                  by_cases hzy : z < y
                  · rw [if_pos hzy] at h2
                    exact absurd h2 (by simp)
                  · rw [if_neg hzy] at h2
                    have hyz' : y = z := le_antisymm (not_lt.mp hzy) (not_lt.mp hyz)
                    subst hyz'
                    rw [if_pos hxy]
              · rw [if_neg hxy] at h1
                by_cases hyx : y < x
                · rw [if_pos hyx] at h1
                  exact absurd h1 (by simp)
                · rw [if_neg hyx] at h1
                  have hxy' : x = y := le_antisymm (not_lt.mp hyx) (not_lt.mp hxy)
                  subst hxy'
                  by_cases hxz : x < z
                  · rw [if_pos hxz]
                  · rw [if_neg hxz] at h2 ⊢
                    by_cases hzx : z < x
                    · rw [if_pos hzx] at h2
                      exact absurd h2 (by simp)
                    · rw [if_neg hzx] at h2 ⊢
                      exact ih h1 h2

theorem listLtB_connex : ∀ {a b : Str},
    listLtB a b = false → listLtB b a = false → a = b := by
  intro a
  induction a with
  | nil =>
      intro b h1 h2
      cases b with
      | nil => rfl
      | cons y ys => simp [listLtB] at h1
  | cons x xs ih =>
      intro b h1 h2
      cases b with
      | nil => simp [listLtB] at h2
      | cons y ys =>
          simp only [listLtB] at h1 h2
          by_cases hxy : x < y
          · rw [if_pos hxy] at h1
            exact absurd h1 (by simp)
          · by_cases hyx : y < x
            · rw [if_pos hyx] at h2
              exact absurd h2 (by simp)
            · rw [if_neg hxy, if_neg hyx] at h1
              rw [if_neg hyx, if_neg hxy] at h2
              have hxy' : x = y := le_antisymm (not_lt.mp hyx) (not_lt.mp hxy)
              rw [hxy', ih h1 h2]

theorem envLtB_asymm {x y : EnvFileInfo}
    (h1 : envLtB x y = true) (h2 : envLtB y x = true) : False := by
  unfold envLtB at h1 h2
  by_cases hp1 : listLtB x.plugin_name y.plugin_name = true
  · rw [if_pos hp1] at h1
    have hp2 : listLtB y.plugin_name x.plugin_name = false :=
      Bool.eq_false_iff.mpr (fun h => listLtB_asymm hp1 h)
    rw [hp2] at h2
    simp only [Bool.false_eq_true, if_false, if_pos hp1] at h2
  · rw [Bool.eq_false_iff.mpr hp1] at h1 h2
    simp only [Bool.false_eq_true, if_false] at h1
    by_cases hp2 : listLtB y.plugin_name x.plugin_name = true
    · rw [if_pos hp2] at h1
      exact Bool.false_ne_true h1
    · rw [Bool.eq_false_iff.mpr hp2] at h1 h2
      simp only [Bool.false_eq_true, if_false] at h1 h2
      by_cases hd1 : listLtB x.distribution y.distribution = true
      · rw [if_pos hd1] at h1
        have hd2 : listLtB y.distribution x.distribution = false :=
          Bool.eq_false_iff.mpr (fun h => listLtB_asymm hd1 h)
        rw [hd2] at h2
        simp only [Bool.false_eq_true, if_false, if_pos hd1] at h2
      · rw [Bool.eq_false_iff.mpr hd1] at h1 h2
        simp only [Bool.false_eq_true, if_false] at h1
        by_cases hd2 : listLtB y.distribution x.distribution = true
        · rw [if_pos hd2] at h1
          exact Bool.false_ne_true h1
        · rw [Bool.eq_false_iff.mpr hd2] at h1 h2
          simp only [Bool.false_eq_true, if_false] at h1 h2
          exact keyLtB_asymm h1 h2

theorem listLtB_irrefl : ∀ a : Str, listLtB a a = false := by
  intro a
  induction a with
  | nil => rfl
  | cons x xs ih =>
      simp only [listLtB, if_neg (lt_irrefl x)]
      exact ih

theorem envLe_total (x y : EnvFileInfo) : envLe x y = true ∨ envLe y x = true := by
  unfold envLe
  cases h1 : envLtB y x with
  | false => exact Or.inl rfl
  | true =>
      cases h2 : envLtB x y with
      | false => exact Or.inr rfl
      | true => exact absurd (envLtB_asymm h2 h1) (by simp)

theorem pairLtB_connex {p q : Str × Str}
    (h1 : pairLtB p q = false) (h2 : pairLtB q p = false) : p = q := by
  unfold pairLtB at h1 h2
  by_cases a1 : listLtB p.1 q.1 = true
  · rw [if_pos a1] at h1; exact absurd h1 (by simp)
  by_cases a2 : listLtB q.1 p.1 = true
  · rw [if_pos a2] at h2; exact absurd h2 (by simp)
  rw [Bool.eq_false_iff.mpr a1, Bool.eq_false_iff.mpr a2] at h1 h2
  simp only [Bool.false_eq_true, if_false] at h1 h2
  have heq1 := listLtB_connex (Bool.eq_false_iff.mpr a1) (Bool.eq_false_iff.mpr a2)
  have heq2 := listLtB_connex h1 h2
  exact Prod.ext heq1 heq2

theorem pairLtB_trans {p q r : Str × Str}
    (h1 : pairLtB p q = true) (h2 : pairLtB q r = true) : pairLtB p r = true := by
  unfold pairLtB at h1 h2 ⊢
  by_cases a1 : listLtB p.1 q.1 = true <;> by_cases a2 : listLtB q.1 r.1 = true
  · rw [if_pos (listLtB_trans a1 a2)]
  · rw [Bool.eq_false_iff.mpr a2] at h2
    simp only [Bool.false_eq_true, if_false] at h2
    by_cases a3 : listLtB r.1 q.1 = true
    · rw [if_pos a3] at h2; exact absurd h2 (by simp)
    · have heq : q.1 = r.1 :=
        listLtB_connex (Bool.eq_false_iff.mpr a2) (Bool.eq_false_iff.mpr a3)
      rw [if_pos (heq ▸ a1)]
  · rw [Bool.eq_false_iff.mpr a1] at h1
    simp only [Bool.false_eq_true, if_false] at h1
    by_cases a3 : listLtB q.1 p.1 = true
    · rw [if_pos a3] at h1; exact absurd h1 (by simp)
    · have heq : p.1 = q.1 :=
        listLtB_connex (Bool.eq_false_iff.mpr a1) (Bool.eq_false_iff.mpr a3)
      rw [if_pos (heq ▸ a2)]
  · rw [Bool.eq_false_iff.mpr a1] at h1
    simp only [Bool.false_eq_true, if_false] at h1
    by_cases a3 : listLtB q.1 p.1 = true
    · rw [if_pos a3] at h1; exact absurd h1 (by simp)
    rw [Bool.eq_false_iff.mpr a2] at h2
    simp only [Bool.false_eq_true, if_false] at h2
    by_cases a4 : listLtB r.1 q.1 = true
    · rw [if_pos a4] at h2; exact absurd h2 (by simp)
    rw [Bool.eq_false_iff.mpr a3] at h1
    rw [Bool.eq_false_iff.mpr a4] at h2
    simp only [Bool.false_eq_true, if_false] at h1 h2
    have heq1 : p.1 = q.1 :=
      listLtB_connex (Bool.eq_false_iff.mpr a1) (Bool.eq_false_iff.mpr a3)
    have heq2 : q.1 = r.1 :=
      listLtB_connex (Bool.eq_false_iff.mpr a2) (Bool.eq_false_iff.mpr a4)
    have hpr1 : listLtB p.1 r.1 = false := by
      rw [heq1, heq2]; exact listLtB_irrefl r.1
    have hpr2 : listLtB r.1 p.1 = false := by
      rw [heq1, heq2]; exact listLtB_irrefl r.1
    rw [hpr1, hpr2]
    simp only [Bool.false_eq_true, if_false]
    exact listLtB_trans h1 h2

theorem envLtB_eq_pairLtB_of_key_eq {x y : EnvFileInfo}
    (hk : release_key x.release = release_key y.release) :
    envLtB x y = pairLtB (pairOf x) (pairOf y) := by
  unfold envLtB pairLtB pairOf
  rw [hk, keyLtB_irrefl]
  by_cases a1 : listLtB x.plugin_name y.plugin_name = true
  · rw [if_pos a1, if_pos a1]
  · rw [Bool.eq_false_iff.mpr a1]
    simp only [Bool.false_eq_true, if_false]
    by_cases a2 : listLtB y.plugin_name x.plugin_name = true
    · rw [if_pos a2, if_pos a2]
    · rw [Bool.eq_false_iff.mpr a2]
      simp only [Bool.false_eq_true, if_false]
      by_cases a3 : listLtB x.distribution y.distribution = true
      · rw [if_pos a3]
        exact a3.symm
      · rw [Bool.eq_false_iff.mpr a3]
        simp only [Bool.false_eq_true, if_false, ite_self]

section DictLemmas

variable {K V : Type} [DecidableEq K]

theorem dictLookup_insert_self (d : List (K × V)) (k : K) (v : V) :
    dictLookup (dictInsert d k v) k = some v := by
  induction d with
  | nil => simp [dictInsert, dictLookup]
  | cons e t ih =>
      obtain ⟨k', v'⟩ := e
      by_cases h : k' = k
      · simp [dictInsert, h, dictLookup]
      · simp [dictInsert, h, dictLookup, ih]

theorem dictLookup_insert_ne (d : List (K × V)) (k k' : K) (v : V) (h : k' ≠ k) :
    dictLookup (dictInsert d k v) k' = dictLookup d k' := by
  have hne : ¬ k = k' := fun he => h he.symm
  induction d with
  | nil => simp [dictInsert, dictLookup, hne]
  | cons e t ih =>
      obtain ⟨k0, v0⟩ := e
      by_cases h0 : k0 = k
      · subst h0
        simp [dictInsert, dictLookup, hne]
      · simp only [dictInsert, if_neg h0, dictLookup, ih]

theorem mem_keys_dictInsert {d : List (K × V)} {k k'' : K} {v : V}
    (h : k'' ∈ (dictInsert d k v).map Prod.fst) :
    k'' ∈ d.map Prod.fst ∨ k'' = k := by
  induction d with
  | nil => simpa [dictInsert] using h
  | cons e t ih =>
      obtain ⟨k0, v0⟩ := e
      by_cases h0 : k0 = k
      · have hstep : dictInsert ((k0, v0) :: t) k v = (k, v) :: t := by
          simp [dictInsert, h0]
        rw [hstep, List.map_cons] at h
        rcases List.mem_cons.mp h with h1 | h1
        · exact Or.inr h1
        · exact Or.inl (List.mem_cons_of_mem _ h1)
      · have hstep : dictInsert ((k0, v0) :: t) k v = (k0, v0) :: dictInsert t k v := by
          simp [dictInsert, h0]
        rw [hstep, List.map_cons] at h
        rcases List.mem_cons.mp h with h1 | h1
        · exact Or.inl (by simp [h1])
        · rcases ih h1 with h2 | h2
          · exact Or.inl (List.mem_cons_of_mem _ h2)
          · exact Or.inr h2

theorem nodupKeys_dictInsert {d : List (K × V)} {k : K} {v : V}
    (h : (d.map Prod.fst).Nodup) : ((dictInsert d k v).map Prod.fst).Nodup := by
  induction d with
  | nil => simp [dictInsert]
  | cons e t ih =>
      obtain ⟨k0, v0⟩ := e
      simp only [List.map_cons, List.nodup_cons] at h
      by_cases h0 : k0 = k
      · subst h0
        simpa [dictInsert] using h
      · simp only [dictInsert, if_neg h0, List.map_cons, List.nodup_cons]
        refine ⟨?_, ih h.2⟩
        intro hmem
        rcases mem_keys_dictInsert hmem with h1 | h1
        · exact h.1 h1
        · exact h0 h1

theorem entries_dictInsert {d : List (K × V)} {k : K} {v : V} {e : K × V}
    (h : e ∈ dictInsert d k v) : e ∈ d ∨ e = (k, v) := by
  induction d with
  | nil => simpa [dictInsert] using h
  | cons e0 t ih =>
      obtain ⟨k0, v0⟩ := e0
      by_cases h0 : k0 = k
      · have hstep : dictInsert ((k0, v0) :: t) k v = (k, v) :: t := by
          simp [dictInsert, h0]
        rw [hstep] at h
        rcases List.mem_cons.mp h with h1 | h1
        · exact Or.inr h1
        · exact Or.inl (List.mem_cons_of_mem _ h1)
      · have hstep : dictInsert ((k0, v0) :: t) k v = (k0, v0) :: dictInsert t k v := by
          simp [dictInsert, h0]
        rw [hstep] at h
        rcases List.mem_cons.mp h with h1 | h1
        · exact Or.inl (by simp [h1])
        · rcases ih h1 with h2 | h2
          · exact Or.inl (List.mem_cons_of_mem _ h2)
          · exact Or.inr h2

theorem dictLookup_some_mem_keys {d : List (K × V)} {k : K} {v : V}
    (h : dictLookup d k = some v) : k ∈ d.map Prod.fst := by
  induction d with
  | nil => simp [dictLookup] at h
  | cons e t ih =>
      obtain ⟨k0, v0⟩ := e
      by_cases h0 : k0 = k
      · simp [h0]
      · simp only [dictLookup, if_neg h0] at h
        simp [ih h]

theorem dictLookup_some_mem {d : List (K × V)} {k : K} {v : V}
    (h : dictLookup d k = some v) : (k, v) ∈ d := by
  induction d with
  | nil => simp [dictLookup] at h
  | cons e t ih =>
      obtain ⟨k0, v0⟩ := e
      by_cases h0 : k0 = k
      · have hv : v0 = v := by simpa [dictLookup, h0] using h
        have he : (k, v) = (k0, v0) := by rw [h0, hv]
        rw [he]
        exact List.mem_cons_self _ _
      · simp only [dictLookup, if_neg h0] at h
        exact List.mem_cons_of_mem _ (ih h)

end DictLemmas

theorem mem_values_iff_lookup (d : List ((Str × Str) × EnvFileInfo))
    (hkeyed : ∀ e ∈ d, e.1 = pairOf e.2) (hnodup : (d.map Prod.fst).Nodup)
    (v : EnvFileInfo) :
    v ∈ d.map Prod.snd ↔ dictLookup d (pairOf v) = some v := by
  induction d with
  | nil => simp [dictLookup]
  | cons e t ih =>
      obtain ⟨k0, v0⟩ := e
      have hk0 : k0 = pairOf v0 := hkeyed (k0, v0) (by simp)
      simp only [List.map_cons, List.nodup_cons] at hnodup
      have iht := ih (fun e he => hkeyed e (by simp [he])) hnodup.2
      simp only [List.map_cons, List.mem_cons]
      constructor
      · rintro (rfl | hmem)
        · simp [dictLookup, hk0]
        · have hl := iht.mp hmem
          have hne : k0 ≠ pairOf v := by
            intro he
            exact hnodup.1 (he ▸ dictLookup_some_mem_keys hl)
          simp [dictLookup, hne, hl]
      · intro hl
        by_cases hke : k0 = pairOf v
        · left
          simp only [dictLookup, if_pos hke, Option.some.injEq] at hl
          exact hl.symm
        · right
          simp only [dictLookup, if_neg hke] at hl
          exact iht.mpr hl

theorem insertSorted_perm (x : EnvFileInfo) (l : List EnvFileInfo) :
    (insertSorted x l).Perm (x :: l) := by
  induction l with
  | nil => simp [insertSorted]
  | cons y ys ih =>
      unfold insertSorted
      by_cases h : envLe x y = true
      · rw [if_pos h]
      · rw [if_neg h]
        exact (ih.cons y).trans (List.Perm.swap x y ys)

theorem insertionSort_perm (l : List EnvFileInfo) :
    (insertionSort l).Perm l := by
  induction l with
  | nil => simp [insertionSort]
  | cons x xs ih =>
      unfold insertionSort
      exact (insertSorted_perm x (insertionSort xs)).trans (ih.cons x)

theorem chain'_insertSorted (x : EnvFileInfo) (l : List EnvFileInfo)
    (hl : l.Chain' (fun a b => envLe a b = true)) :
    (insertSorted x l).Chain' (fun a b => envLe a b = true) := by
  induction l with
  | nil => simp [insertSorted]
  | cons y ys ih =>
      unfold insertSorted
      by_cases h : envLe x y = true
      · rw [if_pos h]
        exact hl.cons h
      · rw [if_neg h]
        have hyx : envLe y x = true := by
          rcases envLe_total x y with h1 | h1
          · exact absurd h1 h
          · exact h1
        have hys := (List.chain'_cons'.mp hl).2
        have hih := ih hys
        rw [List.chain'_cons']
        refine ⟨?_, hih⟩
        intro z hz
        -- z is the head of insertSorted x ys: either x itself or the head of ys
        cases ys with
        | nil =>
            simp only [insertSorted, List.head?_cons, Option.mem_def,
              Option.some.injEq] at hz
            rw [← hz]
            exact hyx
        | cons w ws =>
            by_cases hw : envLe x w = true
            · simp only [insertSorted, if_pos hw, List.head?_cons, Option.mem_def,
                Option.some.injEq] at hz
              rw [← hz]
              exact hyx
            · simp only [insertSorted, if_neg hw, List.head?_cons, Option.mem_def,
                Option.some.injEq] at hz
              rw [← hz]
              exact (List.chain'_cons.mp hl).1

theorem chain'_insertionSort (l : List EnvFileInfo) :
    (insertionSort l).Chain' (fun a b => envLe a b = true) := by
  induction l with
  | nil => simp [insertionSort]
  | cons x xs ih =>
      unfold insertionSort
      exact chain'_insertSorted x (insertionSort xs) ih

theorem chain'_and {α : Type} {R S : α → α → Prop} :
    ∀ {l : List α}, l.Chain' R → l.Chain' S → l.Chain' (fun a b => R a b ∧ S a b) := by
  intro l
  induction l with
  | nil => intro _ _; simp
  | cons x xs ih =>
      intro hR hS
      cases xs with
      | nil => simp
      | cons y ys =>
          rw [List.chain'_cons] at hR hS ⊢
          exact ⟨⟨hR.1, hS.1⟩, ih hR.2 hS.2⟩

theorem chain'_imp_of_mem {α : Type} {R S : α → α → Prop} :
    ∀ {l : List α}, (∀ a b, a ∈ l → b ∈ l → R a b → S a b) → l.Chain' R → l.Chain' S := by
  intro l
  induction l with
  | nil => intro _ _; simp
  | cons x xs ih =>
      intro himp hR
      cases xs with
      | nil => simp
      | cons y ys =>
          rw [List.chain'_cons] at hR ⊢
          refine ⟨himp x y (by simp) (by simp) hR.1, ?_⟩
          exact ih (fun a b ha hb => himp a b (by simp [ha]) (by simp [hb])) hR.2

theorem maxKeyFrom_cons (k : Nat × Nat) (x : EnvFileInfo) (t : List EnvFileInfo) :
    maxKeyFrom k (x :: t) =
      maxKeyFrom (if keyLtB k (release_key x.release) then release_key x.release else k) t :=
  rfl

theorem maxKeyFrom_ge (t : List EnvFileInfo) :
    ∀ k, maxKeyFrom k t = k ∨ keyLtB k (maxKeyFrom k t) = true := by
  induction t with
  | nil => intro k; exact Or.inl rfl
  | cons x t ih =>
      intro k
      rw [maxKeyFrom_cons]
      by_cases h : keyLtB k (release_key x.release) = true
      · rw [if_pos h]
        rcases ih (release_key x.release) with h1 | h1
        · exact Or.inr (by rw [h1]; exact h)
        · exact Or.inr (keyLtB_trans h h1)
      · rw [if_neg h]
        exact ih k

theorem maxKeyFrom_upper (t : List EnvFileInfo) :
    ∀ k, keyLtB (maxKeyFrom k t) k = false ∧
      ∀ j ∈ t, keyLtB (maxKeyFrom k t) (release_key j.release) = false := by
  induction t with
  | nil =>
      intro k
      exact ⟨keyLtB_irrefl k, by simp⟩
  | cons x t ih =>
      intro k
      rw [maxKeyFrom_cons]
      by_cases h : keyLtB k (release_key x.release) = true
      · rw [if_pos h]
        obtain ⟨ih1, ih2⟩ := ih (release_key x.release)
        refine ⟨?_, ?_⟩
        · cases hMk : keyLtB (maxKeyFrom (release_key x.release) t) k with
          | false => rfl
          | true =>
              have htr := keyLtB_trans hMk h
              rw [htr] at ih1
              exact ih1
        · intro j hj
          rcases List.mem_cons.mp hj with rfl | hj
          · exact ih1
          · exact ih2 j hj
      · rw [if_neg h]
        obtain ⟨ih1, ih2⟩ := ih k
        refine ⟨ih1, ?_⟩
        intro j hj
        rcases List.mem_cons.mp hj with rfl | hj
        · cases hMx : keyLtB (maxKeyFrom k t) (release_key j.release) with
          | false => rfl
          | true =>
              exfalso
              by_cases h2 : keyLtB (release_key j.release) k = true
              · have htr := keyLtB_trans hMx h2
                rw [htr] at ih1
                exact absurd ih1 (by simp)
              · have heq : release_key j.release = k :=
                  keyLtB_connex (Bool.eq_false_iff.mpr h2) (Bool.eq_false_iff.mpr h)
                rw [heq] at hMx
                rw [hMx] at ih1
                exact absurd ih1 (by simp)
        · exact ih2 j hj

theorem maxKeyOf_upper (l : List EnvFileInfo) :
    ∀ j ∈ l, keyLtB (maxKeyOf l) (release_key j.release) = false := by
  cases l with
  | nil => simp
  | cons x t =>
      intro j hj
      rcases List.mem_cons.mp hj with rfl | hj
      · exact (maxKeyFrom_upper t (release_key j.release)).1
      · exact (maxKeyFrom_upper t (release_key x.release)).2 j hj

theorem selectFold_char (t : List EnvFileInfo) :
    ∀ (mk : Nat × Nat) (d : List ((Str × Str) × EnvFileInfo)),
      (t.foldl selectStep (some mk, d)).1 = some (maxKeyFrom mk t) ∧
      ∀ kd, dictLookup (t.foldl selectStep (some mk, d)).2 kd =
        match (t.reverse.find? (fun x =>
            decide (release_key x.release = maxKeyFrom mk t) &&
            decide (pairOf x = kd))) with
        | some x => some x
        | none =>
            if maxKeyFrom mk t = mk then dictLookup d kd else none := by
  induction t with
  | nil =>
      intro mk d
      refine ⟨rfl, fun kd => ?_⟩
      simp [maxKeyFrom]
  | cons x t ih =>
      intro mk d
      rw [List.foldl_cons]
      by_cases hlt : keyLtB mk (release_key x.release) = true
      · -- strictly newer key: the dict is reset to the single entry for x
        have hstep : selectStep (some mk, d) x =
            (some (release_key x.release), [(pairOf x, x)]) := by
          simp [selectStep, hlt]
        rw [hstep]
        have hmax : maxKeyFrom mk (x :: t) = maxKeyFrom (release_key x.release) t := by
          rw [maxKeyFrom_cons, if_pos hlt]
        obtain ⟨ih1, ih2⟩ := ih (release_key x.release) [(pairOf x, x)]
        have hMne : maxKeyFrom (release_key x.release) t ≠ mk := by
          intro he
          have hkM : keyLtB mk (maxKeyFrom (release_key x.release) t) = true := by
            rcases maxKeyFrom_ge t (release_key x.release) with h1 | h1
            · rw [h1]; exact hlt
            · exact keyLtB_trans hlt h1
          rw [he, keyLtB_irrefl] at hkM
          exact absurd hkM (by simp)
        refine ⟨by rw [hmax]; exact ih1, fun kd => ?_⟩
        rw [hmax, ih2 kd]
        rw [show (x :: t).reverse = t.reverse ++ [x] by simp]
        rw [List.find?_append]
        cases hfind : t.reverse.find? (fun y =>
            decide (release_key y.release = maxKeyFrom (release_key x.release) t) &&
            decide (pairOf y = kd)) with
        | some y => simp [Option.or]
        | none =>
            simp only [Option.none_or]
            by_cases hMk : maxKeyFrom (release_key x.release) t = release_key x.release
            · rw [if_pos hMk]
              by_cases hpx : pairOf x = kd
              · have hpeval : (decide (release_key x.release =
                    maxKeyFrom (release_key x.release) t) &&
                    decide (pairOf x = kd)) = true := by
                  simp [hMk, hpx]
                simp only [List.find?, hpeval]
                simp [dictLookup, hpx]
              · have hpeval : (decide (release_key x.release =
                    maxKeyFrom (release_key x.release) t) &&
                    decide (pairOf x = kd)) = false := by
                  simp [hpx]
                simp only [List.find?, hpeval]
                simp [dictLookup, hpx, hMne]
            · rw [if_neg hMk]
              have hne2 : release_key x.release ≠ maxKeyFrom (release_key x.release) t :=
                fun he => hMk he.symm
              have hpeval : (decide (release_key x.release =
                  maxKeyFrom (release_key x.release) t) &&
                  decide (pairOf x = kd)) = false := by
                simp [hne2]
              simp only [List.find?, hpeval]
              simp [hMne]
      · by_cases heq : release_key x.release = mk
        · -- equal key: insert into the dict
          have hstep : selectStep (some mk, d) x =
              (some mk, dictInsert d (pairOf x) x) := by
            simp [selectStep, hlt, heq, keyLtB_irrefl]
          rw [hstep]
          have hmax : maxKeyFrom mk (x :: t) = maxKeyFrom mk t := by
            rw [maxKeyFrom_cons, if_neg hlt]
          obtain ⟨ih1, ih2⟩ := ih mk (dictInsert d (pairOf x) x)
          refine ⟨by rw [hmax]; exact ih1, fun kd => ?_⟩
          rw [hmax, ih2 kd]
          rw [show (x :: t).reverse = t.reverse ++ [x] by simp]
          rw [List.find?_append]
          cases hfind : t.reverse.find? (fun y =>
              decide (release_key y.release = maxKeyFrom mk t) &&
              decide (pairOf y = kd)) with
          | some y => simp [Option.or]
          | none =>
              simp only [Option.none_or]
              by_cases hMmk : maxKeyFrom mk t = mk
              · by_cases hpx : pairOf x = kd
                · have hpeval : (decide (release_key x.release = maxKeyFrom mk t) &&
                      decide (pairOf x = kd)) = true := by
                    simp [heq, hMmk, hpx]
                  simp only [List.find?, hpeval]
                  rw [if_pos hMmk, ← hpx, dictLookup_insert_self]
                · have hpeval : (decide (release_key x.release = maxKeyFrom mk t) &&
                      decide (pairOf x = kd)) = false := by
                    simp [hpx]
                  simp only [List.find?, hpeval]
                  rw [if_pos hMmk, if_pos hMmk,
                    dictLookup_insert_ne d (pairOf x) kd x (fun he => hpx he.symm)]
              · have hpeval : (decide (release_key x.release = maxKeyFrom mk t) &&
                    decide (pairOf x = kd)) = false := by
                  have : release_key x.release ≠ maxKeyFrom mk t := by
                    rw [heq]; exact fun he => hMmk he.symm
                  simp [this]
                simp only [List.find?, hpeval]
                rw [if_neg hMmk, if_neg hMmk]
        · -- older key: the state is unchanged
          have hstep : selectStep (some mk, d) x = (some mk, d) := by
            simp [selectStep, hlt, heq]
          rw [hstep]
          have hmax : maxKeyFrom mk (x :: t) = maxKeyFrom mk t := by
            rw [maxKeyFrom_cons, if_neg hlt]
          obtain ⟨ih1, ih2⟩ := ih mk d
          refine ⟨by rw [hmax]; exact ih1, fun kd => ?_⟩
          rw [hmax, ih2 kd]
          rw [show (x :: t).reverse = t.reverse ++ [x] by simp]
          rw [List.find?_append]
          cases hfind : t.reverse.find? (fun y =>
              decide (release_key y.release = maxKeyFrom mk t) &&
              decide (pairOf y = kd)) with
          | some y => simp [Option.or]
          | none =>
              simp only [Option.none_or]
              have hxM : release_key x.release ≠ maxKeyFrom mk t := by
                intro he
                rcases maxKeyFrom_ge t mk with h1 | h1
                · rw [h1] at he
                  exact heq he
                · rw [← he] at h1
                  exact hlt h1
              have hpeval : (decide (release_key x.release = maxKeyFrom mk t) &&
                  decide (pairOf x = kd)) = false := by
                simp [hxM]
              simp only [List.find?, hpeval]

theorem selectFold_lookup (l : List EnvFileInfo) (kd : Str × Str) :
    dictLookup (l.foldl selectStep ((none : Option (Nat × Nat)),
        ([] : List ((Str × Str) × EnvFileInfo)))).2 kd =
      l.reverse.find? (fun x =>
        decide (release_key x.release = maxKeyOf l) && decide (pairOf x = kd)) := by
  cases l with
  | nil => rfl
  | cons x t =>
      rw [List.foldl_cons]
      have hstep : selectStep (none, []) x =
          (some (release_key x.release), [(pairOf x, x)]) := by
        simp [selectStep]
      rw [hstep]
      obtain ⟨-, ih2⟩ := selectFold_char t (release_key x.release) [(pairOf x, x)]
      rw [show maxKeyOf (x :: t) = maxKeyFrom (release_key x.release) t from rfl]
      rw [ih2 kd]
      rw [show (x :: t).reverse = t.reverse ++ [x] by simp]
      rw [List.find?_append]
      cases hfind : t.reverse.find? (fun y =>
          decide (release_key y.release = maxKeyFrom (release_key x.release) t) &&
          decide (pairOf y = kd)) with
      | some y => simp [Option.or]
      | none =>
          simp only [Option.none_or]
          by_cases hMk : maxKeyFrom (release_key x.release) t = release_key x.release
          · rw [if_pos hMk]
            by_cases hpx : pairOf x = kd
            · have hpeval : (decide (release_key x.release =
                  maxKeyFrom (release_key x.release) t) &&
                  decide (pairOf x = kd)) = true := by
                simp [hMk, hpx]
              simp only [List.find?, hpeval]
              simp [dictLookup, hpx]
            · have hpeval : (decide (release_key x.release =
                  maxKeyFrom (release_key x.release) t) &&
                  decide (pairOf x = kd)) = false := by
                simp [hpx]
              simp only [List.find?, hpeval]
              simp [dictLookup, hpx]
          · rw [if_neg hMk]
            have hne2 : release_key x.release ≠ maxKeyFrom (release_key x.release) t :=
              fun he => hMk he.symm
            have hpeval : (decide (release_key x.release =
                maxKeyFrom (release_key x.release) t) &&
                decide (pairOf x = kd)) = false := by
              simp [hne2]
            simp only [List.find?, hpeval]

theorem selectStep_inv (st : Option (Nat × Nat) × List ((Str × Str) × EnvFileInfo))
    (x : EnvFileInfo)
    (h1 : ∀ e ∈ st.2, e.1 = pairOf e.2) (h2 : (st.2.map Prod.fst).Nodup) :
    (∀ e ∈ (selectStep st x).2, e.1 = pairOf e.2) ∧
    ((selectStep st x).2.map Prod.fst).Nodup := by
  obtain ⟨mko, d⟩ := st
  cases mko with
  | none =>
      have hstep : selectStep ((none : Option (Nat × Nat)), d) x =
          (some (release_key x.release), [(pairOf x, x)]) := by
        simp [selectStep]
      rw [hstep]
      constructor
      · intro e he
        simp only [List.mem_singleton] at he
        rw [he]
      · simp
  | some mk =>
      by_cases hlt : keyLtB mk (release_key x.release) = true
      · have hstep : selectStep (some mk, d) x =
            (some (release_key x.release), [(pairOf x, x)]) := by
          simp [selectStep, hlt]
        rw [hstep]
        constructor
        · intro e he
          simp only [List.mem_singleton] at he
          rw [he]
        · simp
      · by_cases heq : release_key x.release = mk
        · have hstep : selectStep (some mk, d) x =
              (some mk, dictInsert d (pairOf x) x) := by
            simp [selectStep, hlt, heq, keyLtB_irrefl]
          rw [hstep]
          constructor
          · intro e he
            rcases entries_dictInsert he with h | h
            · exact h1 e h
            · rw [h]
          · exact nodupKeys_dictInsert h2
        · have hstep : selectStep (some mk, d) x = (some mk, d) := by
            simp [selectStep, hlt, heq]
          rw [hstep]
          exact ⟨h1, h2⟩

theorem selectFold_inv (t : List EnvFileInfo) :
    ∀ st : Option (Nat × Nat) × List ((Str × Str) × EnvFileInfo),
      (∀ e ∈ st.2, e.1 = pairOf e.2) → (st.2.map Prod.fst).Nodup →
      (∀ e ∈ (t.foldl selectStep st).2, e.1 = pairOf e.2) ∧
      ((t.foldl selectStep st).2.map Prod.fst).Nodup := by
  induction t with
  | nil => intro st h1 h2; exact ⟨h1, h2⟩
  | cons x t ih =>
      intro st h1 h2
      rw [List.foldl_cons]
      obtain ⟨h1', h2'⟩ := selectStep_inv st x h1 h2
      exact ih (selectStep st x) h1' h2'

theorem parse_env_filename_inv {name : Str} {info : EnvFileInfo}
    (h : parse_env_filename name = some info) :
    ∃ rest : Str,
      splitOnList sepQiime2 (name.take (name.length - 4)) = [info.plugin_name, rest] ∧
      rest = info.distribution ++ '-' :: info.release ∧
      (∀ c ∈ info.distribution, c ≠ '-') ∧
      isReleaseTok info.release = true := by
  unfold parse_env_filename at h
  split at h
  · dsimp only at h
    split at h
    next plugin_name rest heq =>
      split at h
      · split at h
        next hrel =>
          have hinfo := Option.some.inj h
          subst hinfo
          next hdash =>
            obtain ⟨tail, hdw⟩ := dropWhile_dash_of_mem hdash
            refine ⟨rest, heq, ?_, ?_, hrel⟩
            · show rest = rest.takeWhile (fun c => c ≠ '-') ++
                '-' :: ((rest.dropWhile (fun c => c ≠ '-')).drop 1)
              conv_lhs => rw [← List.takeWhile_append_dropWhile
                (fun c => decide (c ≠ '-')) rest]
              rw [hdw]
              simp
            · intro c hc
              have := List.mem_takeWhile_imp hc
              simpa using this
        next => exact absurd h (by simp)
      · exact absurd h (by simp)
    next => exact absurd h (by simp)
  · exact absurd h (by simp)

theorem parse_newEnvFileName {name : Str} {info : EnvFileInfo} {new_release : Str}
    (hparse : parse_env_filename name = some info)
    (hrel : isReleaseTok new_release = true) :
    parse_env_filename (newEnvFileName info new_release) =
      some ⟨info.plugin_name, info.distribution, new_release⟩ := by
  obtain ⟨rest, hsp, hrest, hdistd, hrelold⟩ := parse_env_filename_inv hparse
  obtain ⟨hstem, hA, hBold⟩ := @splitOnList_pair_inv sepQiime2 _ _ _ (by decide) hsp
  have hreld : ∀ c ∈ new_release, c ≠ '-' := isReleaseTok_no_dash hrel
  have hdd : "-".data = ['-'] := rfl
  have hname : newEnvFileName info new_release =
      (info.plugin_name ++ sepQiime2 ++ (info.distribution ++ '-' :: new_release)) ++
        ymlSuffix := by
    unfold newEnvFileName
    simp [hdd, List.append_assoc]
  rw [hname]
  unfold parse_env_filename
  have hl4 : ((info.plugin_name ++ sepQiime2 ++
        (info.distribution ++ '-' :: new_release)) ++ ymlSuffix).length - 4
      = (info.plugin_name ++ sepQiime2 ++
        (info.distribution ++ '-' :: new_release)).length := by
    have h4 : ymlSuffix.length = 4 := rfl
    simp [List.length_append, h4]
    omega
  rw [hl4, List.drop_left, List.take_left, if_pos rfl]
  dsimp only
  have hA2 : ∀ j < info.plugin_name.length,
      sepQiime2.isPrefixOf
        ((info.plugin_name ++ sepQiime2 ++
          (info.distribution ++ '-' :: new_release)).drop j) = false := by
    intro j hj
    have hw := isPrefixOf_drop_append_congr sepQiime2 (info.plugin_name ++ sepQiime2)
      (info.distribution ++ '-' :: new_release) rest j
      (by
        have h8 : sepQiime2.length = 8 := rfl
        simp only [List.length_append, h8]
        omega)
    rw [hw, ← hstem]
    exact hA j hj
  have hsplitnew : splitOnList sepQiime2
      (info.plugin_name ++ sepQiime2 ++ (info.distribution ++ '-' :: new_release))
      = [info.plugin_name, info.distribution ++ '-' :: new_release] := by
    rw [splitOnList_append (by decide) info.plugin_name
      (info.distribution ++ '-' :: new_release) hA2]
    rw [splitOnList_no_occurrence (info.distribution ++ '-' :: new_release)
      (sepQiime2_not_prefix_of_single_dash info.distribution new_release hdistd hreld)]
  rw [hsplitnew]
  dsimp only
  rw [if_pos (show '-' ∈ info.distribution ++ '-' :: new_release by simp)]
  rw [takeWhile_append_dash _ _ hdistd, dropWhile_append_dash _ _ hdistd]
  rw [show List.drop 1 ('-' :: new_release) = new_release from rfl]
  rw [if_pos hrel]

theorem segDecomp_nil_aux : ∀ {out : Str} {m : List (Str × Str)} {s : Str},
    SegDecomp out m s → m = [] → out = s := by
  intro out m s h
  induction h with
  | nil => intro _; rfl
  | chr c h ih => intro hm; rw [ih hm]
  | ph p e h ih => intro hm; simp at hm

theorem segDecomp_nil_inv {out s : Str} (h : SegDecomp out [] s) : out = s :=
  segDecomp_nil_aux h rfl

theorem segDecomp_cons_aux : ∀ {out : Str} {m : List (Str × Str)} {s : Str},
    SegDecomp out m s → ∀ {p e : Str} {m' : List (Str × Str)}, m = (p, e) :: m' →
    ∃ seg out1 s1, out = seg ++ p ++ out1 ∧ s = seg ++ e ++ s1 ∧
      SegDecomp out1 m' s1 := by
  intro out m s h
  induction h with
  | nil => intro p e m' hm; simp at hm
  | chr c h ih =>
      intro p e m' hm
      obtain ⟨seg, out1, s1, h1, h2, h3⟩ := ih hm
      exact ⟨c :: seg, out1, s1, by rw [h1]; rfl, by rw [h2]; rfl, h3⟩
  | ph p0 e0 h ih =>
      intro p e m' hm
      injection hm with hm1 hm2
      have hp : p0 = p := congrArg Prod.fst hm1
      have he : e0 = e := congrArg Prod.snd hm1
      subst hp
      subst he
      subst hm2
      exact ⟨[], _, _, rfl, rfl, h⟩

theorem segDecomp_cons_inv {out s p e : Str} {m' : List (Str × Str)}
    (h : SegDecomp out ((p, e) :: m') s) :
    ∃ seg out1 s1, out = seg ++ p ++ out1 ∧ s = seg ++ e ++ s1 ∧
      SegDecomp out1 m' s1 :=
  segDecomp_cons_aux h rfl

theorem segDecomp_prepend : ∀ (t : Str) {out : Str} {m : List (Str × Str)} {s : Str},
    SegDecomp out m s → SegDecomp (t ++ out) m (t ++ s) := by
  intro t
  induction t with
  | nil => intro _ _ _ h; simpa using h
  | cons c t ih => intro _ _ _ h; exact SegDecomp.chr c (ih h)

theorem segDecomp_expr_occurs : ∀ {out : Str} {m : List (Str × Str)} {s : Str},
    SegDecomp out m s → ∀ pe ∈ m, Occurs pe.2 s := by
  intro out m s h
  induction h with
  | nil => simp
  | chr c h ih =>
      intro pe hpe
      exact occurs_append_left [c] (ih pe hpe)
  | ph p e h ih =>
      intro pe hpe
      rcases List.mem_cons.mp hpe with rfl | hpe
      · exact occurs_of_front
      · exact occurs_append_left e (ih pe hpe)

theorem isPrefixOf_drop_true_iff {pat s : Str} (hne : pat ≠ []) (i : Nat) :
    pat.isPrefixOf (s.drop i) = true ↔ ∃ a b, s = a ++ pat ++ b ∧ a.length = i := by
  constructor
  · intro h
    rcases isPrefixOf_iff.mp h with ⟨b, hb⟩
    have hile : i ≤ s.length := by
      by_contra hgt
      push_neg at hgt
      rw [List.drop_eq_nil_of_le (le_of_lt hgt)] at hb
      rcases List.append_eq_nil.mp hb with ⟨hpe, -⟩
      exact hne hpe
    refine ⟨s.take i, b, ?_, ?_⟩
    · conv_lhs => rw [← List.take_append_drop i s]
      rw [← hb, List.append_assoc]
    · simp [List.length_take]
      omega
  · rintro ⟨a, b, rfl, rfl⟩
    have hd : ((a ++ pat) ++ b).drop a.length = pat ++ b := by
      rw [List.drop_append_of_le_length (by simp), List.drop_left]
    rw [show (a ++ pat ++ b).drop a.length = pat ++ b from hd]
    exact isPrefixOf_iff.mpr (List.prefix_append pat b)

theorem length_one_mem_eq {l : List Nat} {x : Nat} (h1 : l.length = 1) (h2 : x ∈ l) :
    l = [x] := by
  cases l with
  | nil => simp at h1
  | cons y t =>
      cases t with
      | nil =>
          rcases List.mem_singleton.mp h2 with rfl
          rfl
      | cons z t2 => simp at h1

theorem countOcc_one_unique {pat s : Str} (hne : pat ≠ []) (hcount : countOcc pat s = 1)
    {i : Nat} (hi : pat.isPrefixOf (s.drop i) = true) :
    ∀ j, pat.isPrefixOf (s.drop j) = true → j = i := by
  have hbound : ∀ k, pat.isPrefixOf (s.drop k) = true → k < s.length + 1 := by
    intro k hk
    rcases (isPrefixOf_drop_true_iff hne k).mp hk with ⟨a, b, rfl, rfl⟩
    simp only [List.length_append]
    have : 0 < pat.length := List.length_pos.mpr hne
    omega
  have hmem : ∀ k, pat.isPrefixOf (s.drop k) = true →
      k ∈ (List.range (s.length + 1)).filter (fun j => pat.isPrefixOf (s.drop j)) := by
    intro k hk
    rw [List.mem_filter, List.mem_range]
    exact ⟨hbound k hk, hk⟩
  have heq := length_one_mem_eq hcount (hmem i hi)
  intro j hj
  have := hmem j hj
  rw [heq] at this
  exact List.mem_singleton.mp this

theorem replaceAll_not_occurs {pat s rep : Str}
    (h : ∀ j, pat.isPrefixOf (s.drop j) = false) : replaceAll s pat rep = s := by
  induction s with
  | nil => rfl
  | cons c rest ih =>
      rw [replaceAll_cons_neg c rest rep
        (by
          rintro ⟨-, h2⟩
          have h0 := h 0
          simp only [List.drop_zero] at h0
          rw [h0] at h2
          exact Bool.false_ne_true h2)]
      rw [ih (fun j => by simpa using h (j + 1))]

theorem replaceAll_at {pat : Str} (hne : pat ≠ []) (a b rep : Str)
    (hA : ∀ j < a.length, pat.isPrefixOf ((a ++ pat ++ b).drop j) = false) :
    replaceAll (a ++ pat ++ b) pat rep = a ++ rep ++ replaceAll b pat rep := by
  induction a with
  | nil =>
      simp only [List.nil_append]
      cases hp : pat with
      | nil => exact absurd hp hne
      | cons p0 pt =>
          show replaceAll (p0 :: (pt ++ b)) (p0 :: pt) rep =
            rep ++ replaceAll b (p0 :: pt) rep
          rw [replaceAll_cons_pos p0 (pt ++ b) rep
            ⟨by simp, isPrefixOf_iff.mpr (List.prefix_append (p0 :: pt) b)⟩]
          congr 1
          show replaceAll (((p0 :: pt) ++ b).drop (p0 :: pt).length) (p0 :: pt) rep =
            replaceAll b (p0 :: pt) rep
          rw [List.drop_left]
  | cons c a' ih =>
      have h0 := hA 0 (by simp)
      simp only [List.drop_zero, List.cons_append] at h0
      simp only [List.cons_append]
      rw [replaceAll_cons_neg c (a' ++ pat ++ b) rep
        (by
          rintro ⟨-, h2⟩
          rw [h0] at h2
          exact Bool.false_ne_true h2)]
      rw [ih (fun j hj => by
        have := hA (j + 1) (by simp only [List.length_cons]; omega)
        simpa using this)]

theorem replaceAll_count_one {pat s a b rep : Str} (hne : pat ≠ [])
    (hs : s = a ++ pat ++ b) (hcount : countOcc pat s = 1) :
    replaceAll s pat rep = a ++ rep ++ b := by
  subst hs
  have hia : pat.isPrefixOf ((a ++ pat ++ b).drop a.length) = true :=
    (isPrefixOf_drop_true_iff hne a.length).mpr ⟨a, b, rfl, rfl⟩
  have huniq := countOcc_one_unique hne hcount hia
  rw [replaceAll_at hne a b rep (fun j hj => by
    cases hcase : pat.isPrefixOf ((a ++ pat ++ b).drop j) with
    | false => rfl
    | true =>
        have := huniq j hcase
        omega)]
  have hb : replaceAll b pat rep = b := by
    apply replaceAll_not_occurs
    intro j
    cases hcase : pat.isPrefixOf (b.drop j) with
    | false => rfl
    | true =>
        exfalso
        have hshift : (a ++ pat ++ b).drop (a.length + pat.length + j) = b.drop j := by
          rw [show a.length + pat.length + j = (a ++ pat).length + j by simp]
          exact List.drop_append j
        have : pat.isPrefixOf ((a ++ pat ++ b).drop (a.length + pat.length + j)) = true := by
          rw [hshift]; exact hcase
        have hj := huniq _ this
        have : 0 < pat.length := List.length_pos.mpr hne
        omega
  rw [hb]

theorem matchBody_some {s body r2 : Str} (h : matchBody s = some (body, r2)) :
    body ≠ [] ∧ (∀ c ∈ body, c ≠ '}') ∧ s = body ++ '}' :: '}' :: r2 := by
  unfold matchBody at h
  split at h
  next r2x heq =>
    split at h
    next hemp => simp at h
    next hemp =>
      injection h with h1
      have hb : s.takeWhile (fun c => c ≠ '}') = body := congrArg Prod.fst h1
      have hr : r2x = r2 := congrArg Prod.snd h1
      refine ⟨?_, ?_, ?_⟩
      · rw [← hb]
        intro hnil
        exact hemp (by rw [hnil]; rfl)
      · intro c hc
        rw [← hb] at hc
        have := List.mem_takeWhile_imp hc
        simpa using this
      · rw [← hb, ← hr, ← heq]
        exact (List.takeWhile_append_dropWhile _ _).symm
  next heq => simp at h

theorem mkPlaceholder_ne_nil (u : Str) : mkPlaceholder u ≠ [] := by
  intro h
  rcases List.append_eq_nil.mp h with ⟨-, h2⟩
  exact absurd h2 (by decide)

theorem mkPlaceholder_inj {u v : Str} (h : mkPlaceholder u = mkPlaceholder v) : u = v := by
  unfold mkPlaceholder at h
  exact List.append_cancel_left (List.append_cancel_right h)

theorem jinjaSubFuel_nil (uuids : Nat → Str) (fuel n : Nat) :
    jinjaSubFuel uuids fuel [] n = ([], []) := by
  cases fuel with
  | zero => rfl
  | succ f => rfl

theorem jinjaSubFuel_open_some (uuids : Nat → Str) (f : Nat) (rt : Str) (n : Nat)
    {body r2 : Str} (hm : matchBody rt = some (body, r2)) :
    jinjaSubFuel uuids (f + 1) ('{' :: '{' :: rt) n =
      (mkPlaceholder (uuids n) ++ (jinjaSubFuel uuids f r2 (n + 1)).1,
       (mkPlaceholder (uuids n), '{' :: '{' :: (body ++ ['}', '}'])) ::
         (jinjaSubFuel uuids f r2 (n + 1)).2) := by
  simp only [jinjaSubFuel]
  rw [if_pos ⟨trivial, rfl⟩]
  rw [show ('{' :: rt : Str).tail = rt from rfl, hm]

theorem jinjaSubFuel_open_none (uuids : Nat → Str) (f : Nat) (rt : Str) (n : Nat)
    (hm : matchBody rt = none) :
    jinjaSubFuel uuids (f + 1) ('{' :: '{' :: rt) n =
      ('{' :: (jinjaSubFuel uuids f ('{' :: rt) n).1,
       (jinjaSubFuel uuids f ('{' :: rt) n).2) := by
  simp only [jinjaSubFuel]
  rw [if_pos ⟨trivial, rfl⟩]
  rw [show ('{' :: rt : Str).tail = rt from rfl, hm]

theorem jinjaSubFuel_cons_neg (uuids : Nat → Str) (f : Nat) (c : Char) (rest : Str)
    (n : Nat) (hc : ¬(c = '{' ∧ rest.head? = some '{')) :
    jinjaSubFuel uuids (f + 1) (c :: rest) n =
      (c :: (jinjaSubFuel uuids f rest n).1, (jinjaSubFuel uuids f rest n).2) := by
  simp only [jinjaSubFuel]
  rw [if_neg hc]

theorem jinjaSubFuel_facts (uuids : Nat → Str) :
    ∀ fuel s, s.length ≤ fuel → ∀ n,
      SegDecomp (jinjaSubFuel uuids fuel s n).1 (jinjaSubFuel uuids fuel s n).2 s ∧
      (∀ i (hi : i < (jinjaSubFuel uuids fuel s n).2.length),
        ((jinjaSubFuel uuids fuel s n).2.get ⟨i, hi⟩).1 = mkPlaceholder (uuids (n + i))) ∧
      (∀ pe ∈ (jinjaSubFuel uuids fuel s n).2,
        ∃ body, body ≠ [] ∧ (∀ c ∈ body, c ≠ '}') ∧
          pe.2 = '{' :: '{' :: (body ++ ['}', '}'])) := by
  intro fuel
  induction fuel with
  | zero =>
      intro s hs n
      have hnil : s = [] := List.eq_nil_of_length_eq_zero (Nat.le_zero.mp hs)
      subst hnil
      rw [jinjaSubFuel_nil]
      exact ⟨SegDecomp.nil, by intro i hi; simp at hi, by intro pe hpe; simp at hpe⟩
  | succ f ih =>
      intro s hs n
      cases s with
      | nil =>
          rw [jinjaSubFuel_nil]
          exact ⟨SegDecomp.nil, by intro i hi; simp at hi, by intro pe hpe; simp at hpe⟩
      | cons c rest =>
          by_cases hc : c = '{' ∧ rest.head? = some '{'
          · obtain ⟨hc1, hc2⟩ := hc
            subst hc1
            cases rest with
            | nil => simp at hc2
            | cons r0 rt =>
                simp only [List.head?_cons, Option.some.injEq] at hc2
                subst hc2
                cases hm : matchBody rt with
                | some br =>
                    obtain ⟨body, r2⟩ := br
                    obtain ⟨hb_ne, hb_chars, hdecomp⟩ := matchBody_some hm
                    have hlen : rt.length = body.length + (r2.length + 2) := by
                      rw [hdecomp]; simp
                    have hr2 : r2.length ≤ f := by
                      simp only [List.length_cons] at hs
                      omega
                    obtain ⟨ihd, ihg, ihs⟩ := ih r2 hr2 (n + 1)
                    rw [jinjaSubFuel_open_some uuids f rt n hm]
                    refine ⟨?_, ?_, ?_⟩
                    · have hseq : ('{' :: '{' :: rt : Str) =
                          ('{' :: '{' :: (body ++ ['}', '}'])) ++ r2 := by
                        rw [hdecomp]; simp
                      rw [hseq]
                      exact SegDecomp.ph _ _ ihd
                    · intro i hi
                      cases i with
                      | zero =>
                          show mkPlaceholder (uuids n) = mkPlaceholder (uuids (n + 0))
                          rw [Nat.add_zero]
                      | succ i =>
                          have hi2 : i < (jinjaSubFuel uuids f r2 (n + 1)).2.length := by
                            simp only [List.length_cons] at hi
                            omega
                          have := ihg i hi2
                          show ((jinjaSubFuel uuids f r2 (n + 1)).2.get ⟨i, hi2⟩).1 =
                            mkPlaceholder (uuids (n + (i + 1)))
                          rw [this, show n + (i + 1) = n + 1 + i by omega]
                    · intro pe hpe
                      rcases List.mem_cons.mp hpe with rfl | hpe2
                      · exact ⟨body, hb_ne, hb_chars, rfl⟩
                      · exact ihs pe hpe2
                | none =>
                    have hr : ('{' :: rt : Str).length ≤ f := by
                      simp only [List.length_cons] at hs ⊢
                      omega
                    obtain ⟨ihd, ihg, ihs⟩ := ih ('{' :: rt) hr n
                    rw [jinjaSubFuel_open_none uuids f rt n hm]
                    exact ⟨SegDecomp.chr '{' ihd, ihg, ihs⟩
          · have hr : rest.length ≤ f := by
              simp only [List.length_cons] at hs
              omega
            obtain ⟨ihd, ihg, ihs⟩ := ih rest hr n
            rw [jinjaSubFuel_cons_neg uuids f c rest n hc]
            exact ⟨SegDecomp.chr c ihd, ihg, ihs⟩

theorem restore_of_segDecomp (m : List (Str × Str)) :
    ∀ (out s : Str), SegDecomp out m s →
    (∀ pe ∈ m, pe.1 ≠ []) →
    (∀ i (hi : i < m.length),
      countOcc ((m.get ⟨i, hi⟩).1) (restore_jinja_expressions (m.take i) out) = 1) →
    restore_jinja_expressions m out = s := by
  induction m with
  | nil =>
      intro out s h _ _
      exact segDecomp_nil_inv h
  | cons pe m' ih =>
      intro out s h hne hcnt
      obtain ⟨p, e⟩ := pe
      obtain ⟨seg, out1, s1, hout, hs, hdec⟩ := segDecomp_cons_inv h
      have hp_ne : p ≠ [] := hne (p, e) (by simp)
      have hcnt0 : countOcc p out = 1 := hcnt 0 (by simp)
      have hocc : occursB p out = true := occursB_iff.mpr ⟨seg, out1, hout⟩
      have hrepl : replaceAll out p e = seg ++ e ++ out1 :=
        replaceAll_count_one hp_ne hout hcnt0
      have hstep : restore_jinja_expressions ((p, e) :: m') out =
          restore_jinja_expressions m' (replaceAll out p e) := by
        show restore_jinja_expressions m'
          (if occursB p out then replaceAll out p e else out) =
          restore_jinja_expressions m' (replaceAll out p e)
        rw [if_pos hocc]
      rw [hstep, hrepl, hs]
      apply ih (seg ++ e ++ out1) (seg ++ e ++ s1)
      · exact segDecomp_prepend (seg ++ e) hdec
      · exact fun q hq => hne q (by simp [hq])
      · intro i hi
        have hstep2 : restore_jinja_expressions (((p, e) :: m').take (i + 1)) out =
            restore_jinja_expressions (m'.take i) (seg ++ e ++ out1) := by
          rw [List.take_succ_cons]
          show restore_jinja_expressions (m'.take i)
            (if occursB p out then replaceAll out p e else out) =
            restore_jinja_expressions (m'.take i) (seg ++ e ++ out1)
          rw [if_pos hocc, hrepl]
        have hcs := hcnt (i + 1) (by simp only [List.length_cons]; omega)
        rw [hstep2] at hcs
        exact hcs

theorem occurs_cleanDep {pat s : Str} (hne : pat ≠ [])
    (hchars : ∀ c ∈ pat, isPySpace c = false ∧ c ≠ '-')
    (h : Occurs pat s) : Occurs pat (cleanDep s) := by
  have h1 : Occurs pat (pyStrip s) :=
    occurs_pyStrip hne (fun c hc => (hchars c hc).1) h
  unfold cleanDep
  by_cases hh : (pyStrip s).head? = some '-'
  · simp only [hh, if_pos rfl]
    rcases h1 with ⟨a, b, hab⟩
    cases a with
    | nil =>
        cases pat with
        | nil => exact absurd rfl hne
        | cons p0 pt =>
            simp only [List.nil_append, List.cons_append] at hab
            rw [hab] at hh
            simp only [List.head?_cons, Option.some.injEq] at hh
            exact absurd hh (hchars p0 (by simp)).2
    | cons a0 a' =>
        have hdrop : (pyStrip s).drop 1 = a' ++ pat ++ b := by
          rw [hab]; simp
        exact occurs_pyStrip hne (fun c hc => (hchars c hc).1) ⟨a', b, hdrop⟩
  · simp only [hh, if_neg]
    simpa using h1

/-! ## Claim theorems: C1, C2, C10, C4, C9 -/

/-- C1: `process_placeholder` hyphenates the placeholder (every underscore
becomes a hyphen) and looks it up in the seed-dependency map; it returns the
mapped version exactly when the hyphenated name is a key with a non-empty
value, and the default string ">=0.0.0" in every other case. -/
theorem c1_process_placeholder (placeholder : Str) (seed_dependencies : List (Str × Str)) :
    process_placeholder placeholder seed_dependencies =
      match dictLookup seed_dependencies
          (placeholder.map (fun c => if c = '_' then '-' else c)) with
      | some v => if v ≠ [] then v else ">=0.0.0".data
      | none => ">=0.0.0".data := by
  unfold process_placeholder
  rw [replaceAll_single]
  rfl

/-- C2 counterexample: on a fetch/parse error, `fetch_seed_environment` does
not propagate the error to its caller; it returns the substitute result `{}`
(the empty dependency dict) wrapped in a successful return. -/
theorem c2_counterexample :
    fetch_seed_environment (Except.error "HTTP error 404".data) = Except.ok [] ∧
    isErrorResult (fetch_seed_environment (Except.error "HTTP error 404".data)) = false :=
  ⟨rfl, rfl⟩

/-- C2 (amended): whenever fetching or parsing the seed environment fails,
`fetch_seed_environment` catches the exception, and returns an empty
dependency dict to its caller instead of propagating the error. -/
theorem c2_error_caught_returns_empty (msg : Str) :
    fetch_seed_environment (Except.error msg) = Except.ok [] := rfl

/-- C10: the guard `len(parts) >= 1` does not make the access `parts[1]`
safe; on a seed environment whose dependencies contain the bare string
entry "pip", the version extraction raises an uncaught IndexError. -/
theorem c10_bare_pip_raises :
    fetch_seed_environment (Except.ok ⟨[DepEntry.str "pip".data]⟩) =
      Except.error indexErrorMsg := rfl

/-- C4: tags are classified as dev exactly when the substring "dev" occurs
in the tag name; `get_latest_dev_and_stable` returns the positionally first
dev and first stable tag (`none` for an empty class), and
`get_previous_dev_and_stable` returns the positionally second tag of each
class (`none` when the class has fewer than two tags). -/
theorem c4_tags_first_and_second (tags : List Str) :
    (∀ tag, occursB devStr tag = true ↔ Occurs devStr tag) ∧
    get_latest_dev_and_stable tags =
      (firstSatisfying (fun t => occursB devStr t) tags,
       firstSatisfying (fun t => !occursB devStr t) tags) ∧
    get_previous_dev_and_stable tags =
      (secondSatisfying (fun t => occursB devStr t) tags,
       secondSatisfying (fun t => !occursB devStr t) tags) := by
  refine ⟨fun tag => occursB_iff, ?_, ?_⟩
  · simp only [get_latest_dev_and_stable, head?_filter_eq_firstSatisfying]
  · simp only [get_previous_dev_and_stable, getElem?_one_filter_eq_secondSatisfying]

theorem create_calls_le_two (repo : Str) (args : MArgs) (milestones : List Milestone) :
    (create_or_edit_milestone repo args milestones).length ≤ 2 := by
  unfold create_or_edit_milestone
  dsimp only
  split
  · split
    · simp
    · split <;> simp
  · split <;> simp

theorem length_flatMap_le (l : List Str) (f : Str → List HttpCall)
    (h : ∀ x, (f x).length ≤ 2) : (l.flatMap f).length ≤ 2 * l.length := by
  induction l with
  | nil => simp
  | cons x xs ih =>
      simp only [List.flatMap_cons, List.length_append, List.length_cons]
      have := h x
      omega

theorem create_calls_due_on (repo : Str) (args : MArgs) (milestones : List Milestone) :
    ∀ c ∈ create_or_edit_milestone repo args milestones, ∀ p, callPayload c = some p →
      p.due_on = none ∨ p.due_on = args.due := by
  unfold create_or_edit_milestone
  dsimp only
  split
  · split
    · intro c hc p hp
      simp only [List.mem_singleton] at hc
      subst hc
      simp [callPayload] at hp
    · split
      · intro c hc p hp
        simp only [List.mem_singleton] at hc
        subst hc
        simp [callPayload] at hp
      · intro c hc p hp
        simp only [List.mem_cons, List.mem_singleton, List.not_mem_nil, or_false] at hc
        rcases hc with rfl | rfl
        · simp [callPayload] at hp
        · simp only [callPayload, Option.some.injEq] at hp
          subst hp
          dsimp only
          by_cases hed : (args.edit && optTruthy args.due) = true
          · rw [if_pos hed]; right; rfl
          · rw [if_neg hed]; left; rfl
  · split
    · intro c hc
      simp at hc
    · intro c hc p hp
      simp only [List.mem_singleton] at hc
      subst hc
      simp only [callPayload, Option.some.injEq] at hp
      subst hp
      dsimp only
      by_cases hed : optTruthy args.due = true
      · rw [if_pos hed]; right; rfl
      · rw [if_neg hed]; left; rfl

/-! ## Claim theorems: C3, C7 -/

/-- C3 counterexample: a run of the milestone script with two repositories,
`--edit`, no dry run, and a matching milestone in each repository issues 4
HTTP requests (one GET plus one PATCH per repository), which exceeds the
claimed bound of 2 HTTP calls per run. -/
theorem c3_counterexample : ¬ (callCount (milestoneMain c3args c3existing) ≤ 2) := by
  decide

/-- C3 (amended): each repository iteration of the milestone script performs
at most 2 HTTP calls (one GET plus one POST/PATCH), so a run over a
comma-separated repository list performs at most 2 HTTP calls per listed
repository, i.e. at most twice the number of repositories in total. -/
theorem c3_at_most_two_calls_per_repo :
    (∀ repo args milestones,
      (create_or_edit_milestone repo args milestones).length ≤ 2) ∧
    (∀ args existing calls, milestoneMain args existing = Except.ok calls →
      calls.length ≤ 2 * (splitOnList [','] args.repos).length) := by
  constructor
  · exact create_calls_le_two
  · intro args existing calls h
    unfold milestoneMain at h
    cases hp : processDue args.due with
    | error e => rw [hp] at h; exact absurd h (by simp)
    | ok due2 =>
        rw [hp] at h
        have h2 : calls =
            ((splitOnList [','] args.repos).map pyStrip).flatMap
              (fun repo => create_or_edit_milestone repo { args with due := due2 }
                (existing repo)) :=
          (Except.ok.inj h).symm
        rw [h2]
        have hb := length_flatMap_le ((splitOnList [','] args.repos).map pyStrip)
          (fun repo => create_or_edit_milestone repo { args with due := due2 } (existing repo))
          (fun x => create_calls_le_two x _ _)
        simpa using hb

/-- Witness for the amended C3 bound at a concrete run with two
repositories. -/
theorem c3_at_most_two_calls_per_repo_witness :
    (exceptCalls (milestoneMain c3args c3existing)).length ≤
      2 * (splitOnList [','] c3args.repos).length :=
  c3_at_most_two_calls_per_repo.2 c3args c3existing
    (exceptCalls (milestoneMain c3args c3existing)) rfl

/-- C7 counterexample: with `--due` supplied as the empty string, the
argument does not parse in the format YYYYMMDDhhmmss, yet `main` raises no
ValueError: the empty string is falsy, so the parse is skipped and the run
proceeds to the milestone operations. -/
theorem c7_counterexample :
    strptime14 [] = none ∧
    milestoneMain { name := "m".data, repos := "org/a".data, due := some [] }
        (fun _ => []) =
      Except.ok [HttpCall.post (milestonesUrl "org/a".data) { title := some "m".data }] :=
  ⟨rfl, rfl⟩

/-- C7 (amended): for a non-empty `--due` argument, `main` raises a
ValueError before any milestone operation exactly when the argument does not
parse with strptime format "%Y%m%d%H%M%S"; when it parses, every payload
that carries a due date carries its ISO 8601 UTC reformatting
(YYYY-MM-DDThh:mm:ssZ). -/
theorem c7_due_parse_iff (args : MArgs) (existing : Str → List Milestone) (s : Str)
    (hdue : args.due = some s) (hne : s ≠ []) :
    (strptime14 s = none → milestoneMain args existing = Except.error dueErrMsg) ∧
    (∀ dt, strptime14 s = some dt →
      ∃ calls, milestoneMain args existing = Except.ok calls ∧
        ∀ c ∈ calls, ∀ p, callPayload c = some p →
          p.due_on = none ∨ p.due_on = some (isoFormat dt)) := by
  have hie : s.isEmpty = false := by
    cases s with
    | nil => exact absurd rfl hne
    | cons c t => rfl
  constructor
  · intro hnone
    have hpd : processDue args.due = Except.error dueErrMsg := by
      rw [hdue]
      simp [processDue, optTruthy, hie, hnone]
    unfold milestoneMain
    rw [hpd]
  · intro dt hdt
    have hpd : processDue args.due = Except.ok (some (isoFormat dt)) := by
      rw [hdue]
      simp [processDue, optTruthy, hie, hdt]
    refine ⟨_, by unfold milestoneMain; rw [hpd], ?_⟩
    intro c hc p hp
    rcases List.mem_flatMap.mp hc with ⟨repo, hrepo, hcall⟩
    have hshape := create_calls_due_on repo { args with due := some (isoFormat dt) }
      (existing repo) c hcall p hp
    simpa using hshape

/-- Witness for the amended C7 statement at a parseable concrete due date. -/
theorem c7_due_parse_iff_witness :
    ∃ calls, milestoneMain c7args (fun _ => []) = Except.ok calls ∧
      ∀ c ∈ calls, ∀ p, callPayload c = some p →
        p.due_on = none ∨
        p.due_on = some (isoFormat ⟨2025, 6, 30, 12, 30, 0⟩) :=
  (c7_due_parse_iff c7args (fun _ => []) "20250630123000".data rfl (by decide)).2
    ⟨2025, 6, 30, 12, 30, 0⟩ (by decide)

theorem select_latest_envs_eq (files : List Str) :
    select_latest_envs files = insertionSort (selectFiltered files) := rfl

theorem selectDict_keyed (files : List Str) :
    ∀ e ∈ selectDict files, e.1 = pairOf e.2 :=
  (selectFold_inv (parsedInfos files) (none, []) (by simp) (by simp)).1

theorem selectDict_nodupKeys (files : List Str) :
    ((selectDict files).map Prod.fst).Nodup :=
  (selectFold_inv (parsedInfos files) (none, []) (by simp) (by simp)).2

theorem selectDict_lookup (files : List Str) (kd : Str × Str) :
    dictLookup (selectDict files) kd =
      (parsedInfos files).reverse.find? (fun x =>
        decide (release_key x.release = maxKeyOf (parsedInfos files)) &&
        decide (pairOf x = kd)) :=
  selectFold_lookup (parsedInfos files) kd

theorem mem_select_latest_iff (files : List Str) (i : EnvFileInfo) :
    i ∈ select_latest_envs files ↔
      ((parsedInfos files).reverse.find? (fun x =>
          decide (release_key x.release = maxKeyOf (parsedInfos files)) &&
          decide (pairOf x = pairOf i)) = some i ∧
        ¬(i.distribution = metagenomeStr ∧
          ∃ j ∈ parsedInfos files,
            release_key j.release = maxKeyOf (parsedInfos files) ∧
            j.plugin_name = i.plugin_name ∧ j.distribution = moshpitStr)) := by
  have hbool : ∀ a b : Bool, ((!(a && b)) = true ↔ ¬(a = true ∧ b = true)) := by
    decide
  have hB : (dictLookup (selectDict files) (i.plugin_name, moshpitStr)).isSome = true ↔
      ∃ j ∈ parsedInfos files,
        release_key j.release = maxKeyOf (parsedInfos files) ∧
        j.plugin_name = i.plugin_name ∧ j.distribution = moshpitStr := by
    rw [selectDict_lookup, List.find?_isSome]
    constructor
    · rintro ⟨x, hx, hpx⟩
      simp only [Bool.and_eq_true, decide_eq_true_eq] at hpx
      exact ⟨x, List.mem_reverse.mp hx, hpx.1,
        congrArg Prod.fst hpx.2, congrArg Prod.snd hpx.2⟩
    · rintro ⟨j, hj, hk, hp, hd⟩
      refine ⟨j, List.mem_reverse.mpr hj, ?_⟩
      simp only [Bool.and_eq_true, decide_eq_true_eq]
      exact ⟨hk, by rw [pairOf, hp, hd]⟩
  rw [select_latest_envs_eq]
  rw [(insertionSort_perm (selectFiltered files)).mem_iff]
  unfold selectFiltered
  rw [List.mem_filter]
  rw [show selectVals files = (selectDict files).map Prod.snd from rfl]
  rw [mem_values_iff_lookup (selectDict files) (selectDict_keyed files)
    (selectDict_nodupKeys files) i]
  rw [selectDict_lookup]
  apply and_congr_right
  intro _
  rw [hbool]
  rw [decide_eq_true_eq, hB]

theorem select_pairs_nodup (files : List Str) :
    ((select_latest_envs files).map pairOf).Nodup := by
  rw [select_latest_envs_eq]
  have hperm := ((insertionSort_perm (selectFiltered files)).map pairOf)
  rw [hperm.nodup_iff]
  have hvals : ((selectVals files).map pairOf).Nodup := by
    rw [show selectVals files = (selectDict files).map Prod.snd from rfl]
    rw [List.map_map]
    have hmc : List.map (pairOf ∘ Prod.snd) (selectDict files) =
        List.map Prod.fst (selectDict files) :=
      List.map_congr_left (fun e he => ((selectDict_keyed files) e he).symm)
    rw [hmc]
    exact selectDict_nodupKeys files
  exact List.Nodup.sublist ((List.filter_sublist _).map pairOf) hvals

theorem select_pairs_sorted (files : List Str) :
    (select_latest_envs files).Pairwise
      (fun a b => pairLtB (pairOf a) (pairOf b) = true) := by
  have hM : ∀ i ∈ select_latest_envs files,
      release_key i.release = maxKeyOf (parsedInfos files) := by
    intro i hi
    have h := (mem_select_latest_iff files i).mp hi
    have hp := List.find?_some h.1
    simp only [Bool.and_eq_true, decide_eq_true_eq] at hp
    exact hp.1
  have hchain : (select_latest_envs files).Chain' (fun a b => envLe a b = true) := by
    rw [select_latest_envs_eq]
    exact chain'_insertionSort _
  have hpairw : (select_latest_envs files).Pairwise
      (fun a b => pairOf a ≠ pairOf b) :=
    List.pairwise_map.mp (select_pairs_nodup files)
  have hcomb := chain'_and hchain hpairw.chain'
  have hlt : (select_latest_envs files).Chain'
      (fun a b => pairLtB (pairOf a) (pairOf b) = true) := by
    refine chain'_imp_of_mem ?_ hcomb
    intro a b ha hb hab
    obtain ⟨hle, hne⟩ := hab
    have hkey : release_key b.release = release_key a.release := by
      rw [hM a ha, hM b hb]
    have hltba : envLtB b a = false := by
      cases hz : envLtB b a with
      | false => rfl
      | true =>
          unfold envLe at hle
          rw [hz] at hle
          exact absurd hle (by simp)
    have hfalse : pairLtB (pairOf b) (pairOf a) = false := by
      rw [← envLtB_eq_pairLtB_of_key_eq hkey]
      exact hltba
    cases hz : pairLtB (pairOf a) (pairOf b) with
    | true => rfl
    | false => exact absurd (pairLtB_connex hz hfalse) hne
  haveI : IsTrans EnvFileInfo (fun a b => pairLtB (pairOf a) (pairOf b) = true) :=
    ⟨fun a b c hab hbc => pairLtB_trans hab hbc⟩
  exact List.chain'_iff_pairwise.mp hlt

/-- C5: `select_latest_envs` returns exactly the parsed env files at the
maximal `(major, minor)` release key, one per `(plugin, distribution)` pair
(the last such file in directory order), omitting every metagenome entry
whose plugin also has a moshpit entry at that latest release, and sorted
strictly by `(plugin_name, distribution)`. -/
theorem c5_select_latest_envs (files : List Str) :
    (∀ i, i ∈ select_latest_envs files ↔
      ((parsedInfos files).reverse.find? (fun x =>
          decide (release_key x.release = maxKeyOf (parsedInfos files)) &&
          decide (pairOf x = pairOf i)) = some i ∧
        ¬(i.distribution = metagenomeStr ∧
          ∃ j ∈ parsedInfos files,
            release_key j.release = maxKeyOf (parsedInfos files) ∧
            j.plugin_name = i.plugin_name ∧ j.distribution = moshpitStr))) ∧
    (∀ i ∈ select_latest_envs files,
      i ∈ parsedInfos files ∧
      release_key i.release = maxKeyOf (parsedInfos files)) ∧
    (∀ j ∈ parsedInfos files,
      keyLtB (maxKeyOf (parsedInfos files)) (release_key j.release) = false) ∧
    ((select_latest_envs files).map pairOf).Nodup ∧
    (select_latest_envs files).Pairwise
      (fun a b => pairLtB (pairOf a) (pairOf b) = true) := by
  refine ⟨mem_select_latest_iff files, ?_, maxKeyOf_upper _,
    select_pairs_nodup files, select_pairs_sorted files⟩
  intro i hi
  have h := (mem_select_latest_iff files i).mp hi
  have hp := List.find?_some h.1
  simp only [Bool.and_eq_true, decide_eq_true_eq] at hp
  exact ⟨List.mem_reverse.mp (List.mem_of_find?_eq_some h.1), hp.1⟩

/-- Witness for C5 at a concrete directory listing. -/
theorem c5_select_latest_envs_witness :
    (⟨"p".data, "moshpit".data, "2025.7".data⟩ : EnvFileInfo) ∈ parsedInfos c5files ∧
    release_key "2025.7".data = maxKeyOf (parsedInfos c5files) :=
  (c5_select_latest_envs c5files).2.1
    ⟨"p".data, "moshpit".data, "2025.7".data⟩ (by decide)

/-- C6: for every parsed env file info and every new release token of the
form digits '.' digits, the file written by `write_new_env_file` has a name
that `parse_env_filename` parses back to the same plugin name, the same
distribution, and the new release token, and its content is the old
content with every occurrence of the old release token replaced by the new
one. -/
theorem c6_write_roundtrip (name : Str) (info : EnvFileInfo) (new_release text : Str)
    (hparse : parse_env_filename name = some info)
    (hrel : isReleaseTok new_release = true) :
    parse_env_filename (write_new_env_file info new_release text).1 =
      some ⟨info.plugin_name, info.distribution, new_release⟩ ∧
    (write_new_env_file info new_release text).2 =
      replaceAll text info.release new_release :=
  ⟨parse_newEnvFileName hparse hrel, rfl⟩

/-- Witness for C6 at a concrete env file and release bump. -/
theorem c6_write_roundtrip_witness :
    parse_env_filename
        (write_new_env_file ⟨"q2-foo".data, "tiny".data, "2025.7".data⟩
          "2025.8".data "deps: 2025.7".data).1 =
      some ⟨"q2-foo".data, "tiny".data, "2025.8".data⟩ ∧
    (write_new_env_file ⟨"q2-foo".data, "tiny".data, "2025.7".data⟩
        "2025.8".data "deps: 2025.7".data).2 =
      replaceAll "deps: 2025.7".data "2025.7".data "2025.8".data :=
  c6_write_roundtrip "q2-foo-qiime2-tiny-2025.7.yml".data
    ⟨"q2-foo".data, "tiny".data, "2025.7".data⟩ "2025.8".data "deps: 2025.7".data
    (by decide) (by decide)

/-- C9: the finalized dependency list written to environment.yml always
contains an entry in which "q2cli" occurs, and the entry "  - q2cli" is
appended exactly when no extracted dependency contains "q2cli". -/
theorem c9_q2cli_always_present (extracted : List Str) :
    (∃ d ∈ finalizeDeps extracted, occursB q2cliStr d = true) ∧
    finalizeDeps extracted =
      (if extracted.any (fun d => occursB q2cliStr d) then extracted
       else extracted ++ [q2cliEntry]).map cleanDep := by
  constructor
  · cases hq : extracted.any (fun d => occursB q2cliStr d) with
    | true =>
        rcases List.any_eq_true.mp hq with ⟨d, hd, hocc⟩
        refine ⟨cleanDep d, ?_, ?_⟩
        · simp only [finalizeDeps, hq, if_true]
          exact List.mem_map_of_mem _ hd
        · exact occursB_iff.mpr
            (occurs_cleanDep (by decide) (by decide) (occursB_iff.mp hocc))
    | false =>
        refine ⟨cleanDep q2cliEntry, ?_, by decide⟩
        simp only [finalizeDeps, hq, Bool.false_eq_true, if_false]
        exact List.mem_map_of_mem _ (by simp)
  · rfl

/-- C8: under the uuid-freshness assumptions that model `uuid.uuid4().hex`
(the uuids drawn while scanning are pairwise distinct, no generated
placeholder occurs in the original content, and each placeholder occurs
exactly once in the string it is substituted back into), preprocessing
with `preprocess_yaml_with_jinja` followed by `restore_jinja_expressions`
restores the original string exactly; moreover each placeholder in the map
is the `__JINJA_PLACEHOLDER_<uuid>__` string of its uuid and does not
occur in the original content, the placeholders are pairwise distinct, and
the map sends each placeholder to the exact `\x7b\x7b ... \x7d\x7d`
expression it replaced, which occurs in the original content and has a
nonempty brace-free body. -/
theorem c8_preprocess_roundtrip (uuids : Nat → Str) (content : Str)
    (hdist : ∀ j, j < (preprocess_yaml_with_jinja uuids content).2.length →
      ∀ i, i < j → uuids i ≠ uuids j)
    (hfresh : ∀ i, i < (preprocess_yaml_with_jinja uuids content).2.length →
      occursB (mkPlaceholder (uuids i)) content = false)
    (hcnt : ∀ i (hi : i < (preprocess_yaml_with_jinja uuids content).2.length),
      countOcc (((preprocess_yaml_with_jinja uuids content).2.get ⟨i, hi⟩).1)
        (restore_jinja_expressions
          ((preprocess_yaml_with_jinja uuids content).2.take i)
          (preprocess_yaml_with_jinja uuids content).1) = 1) :
    restore_jinja_expressions (preprocess_yaml_with_jinja uuids content).2
        (preprocess_yaml_with_jinja uuids content).1 = content ∧
    (∀ i (hi : i < (preprocess_yaml_with_jinja uuids content).2.length),
      ((preprocess_yaml_with_jinja uuids content).2.get ⟨i, hi⟩).1 =
        mkPlaceholder (uuids i) ∧
      occursB (((preprocess_yaml_with_jinja uuids content).2.get ⟨i, hi⟩).1)
        content = false) ∧
    (∀ i j (hi : i < (preprocess_yaml_with_jinja uuids content).2.length)
      (hj : j < (preprocess_yaml_with_jinja uuids content).2.length), i ≠ j →
      ((preprocess_yaml_with_jinja uuids content).2.get ⟨i, hi⟩).1 ≠
        ((preprocess_yaml_with_jinja uuids content).2.get ⟨j, hj⟩).1) ∧
    (∀ pe ∈ (preprocess_yaml_with_jinja uuids content).2,
      Occurs pe.2 content ∧
      ∃ body, body ≠ [] ∧ (∀ c ∈ body, c ≠ '}') ∧
        pe.2 = '{' :: '{' :: (body ++ ['}', '}'])) := by
  simp only [preprocess_yaml_with_jinja] at hdist hfresh hcnt ⊢
  obtain ⟨hd, hg, hshape⟩ :=
    jinjaSubFuel_facts uuids content.length content le_rfl 0
  have hg0 : ∀ i (hi : i < (jinjaSubFuel uuids content.length content 0).2.length),
      ((jinjaSubFuel uuids content.length content 0).2.get ⟨i, hi⟩).1 =
        mkPlaceholder (uuids i) := by
    intro i hi
    have := hg i hi
    rwa [Nat.zero_add] at this
  have hnil : ∀ pe ∈ (jinjaSubFuel uuids content.length content 0).2,
      pe.1 ≠ [] := by
    intro pe hpe
    rcases List.mem_iff_get.mp hpe with ⟨⟨i, hi⟩, hget⟩
    rw [← hget, hg0 i hi]
    exact mkPlaceholder_ne_nil _
  refine ⟨?_, ?_, ?_, ?_⟩
  · exact restore_of_segDecomp _ _ _ hd hnil hcnt
  · intro i hi
    refine ⟨hg0 i hi, ?_⟩
    rw [hg0 i hi]
    exact hfresh i hi
  · intro i j hi hj hij
    rw [hg0 i hi, hg0 j hj]
    intro heq
    have huv := mkPlaceholder_inj heq
    rcases Nat.lt_or_ge i j with hlt | hge
    · exact hdist j hj i hlt huv
    · have hlt : j < i := Nat.lt_of_le_of_ne hge (fun hh => hij hh.symm)
      exact hdist i hi j hlt huv.symm
  · intro pe hpe
    exact ⟨segDecomp_expr_occurs hd pe hpe, hshape pe hpe⟩

/-- Witness for C8 at a concrete content with two Jinja expressions and a
concrete distinct, fresh uuid stream. -/
theorem c8_preprocess_roundtrip_witness :
    restore_jinja_expressions (preprocess_yaml_with_jinja c8uuids c8content).2
      (preprocess_yaml_with_jinja c8uuids c8content).1 = c8content :=
  (c8_preprocess_roundtrip c8uuids c8content (by decide) (by decide)
    (by decide)).1

end Utilities
